import Mathlib

/-!
Verification development for `lib/python/get_user_threads.py`.

The Python module is shallowly embedded: Python runtime values are the
inductive `PyValue` (dicts are association lists in insertion order, which
is exactly Python 3.7+ dict iteration order), Python `float` is `PyFloat`
(non-finite values are explicit constructors; finite doubles are modelled
as exact rationals — IEEE rounding of arithmetic is not modelled because
the module performs no float arithmetic beyond comparison and conversion),
and functions that can raise an uncaught exception return `Except String`.

String primitives (`strip`, `lstrip`, `lower`, `startswith`) are
re-implemented over character lists by structural recursion so that every
definition evaluates inside the kernel; they model the ASCII behaviour of
their Python counterparts, which is all the inputs of interest exercise.
-/

set_option maxRecDepth 8000

/-- ASCII whitespace as recognised by Python `str.strip` (the Unicode
whitespace extension is not modelled). -/
def isPySpace (c : Char) : Bool :=
  c == ' ' || c == '\t' || c == '\n' || c == '\r' || c == '\x0b' || c == '\x0c'

/-- Python `str.strip()` (ASCII whitespace). -/
def pyStrip (s : String) : String :=
  ⟨((s.data.dropWhile isPySpace).reverse.dropWhile isPySpace).reverse⟩

/-- Python `str.lstrip()` (ASCII whitespace). -/
def pyLStrip (s : String) : String :=
  ⟨s.data.dropWhile isPySpace⟩

/-- ASCII lower-casing of one character. -/
def lowerChar (c : Char) : Char :=
  if 65 ≤ c.toNat ∧ c.toNat ≤ 90 then Char.ofNat (c.toNat + 32) else c

/-- Does `s` start with `p`? (Python `str.startswith`.) -/
def charsStartWith : List Char → List Char → Bool
  | _, [] => true
  | [], _ :: _ => false
  | c :: cs, p :: ps => c == p && charsStartWith cs ps

/-- Model of a Python `float` value.  `finite q` is a finite double whose
exact value is `q`; `nan`, `inf`, `ninf` are the non-finite doubles. -/
inductive PyFloat where
  | nan
  | inf
  | ninf
  | finite (q : ℚ)
deriving DecidableEq

/-- Model of a Python runtime value as it can occur in the pickled /
parquet inputs of `get_user_threads.py`.  Python `list` and `tuple` are
identified (every `isinstance` check in the source accepts both), and a
`dict` is its item list in insertion order.  The pandas `Timestamp` branch
of `normalize_created_at` is not modelled (no claim touches it). -/
inductive PyValue where
  | none
  | bool (b : Bool)
  | int (n : ℤ)
  | float (f : PyFloat)
  | str (s : String)
  | list (xs : List PyValue)
  | dict (xs : List (PyValue × PyValue))

/-- Largest magnitude an exact integer/decimal may have before Python
float conversion overflows: values of magnitude `≥ 2^1024 - 2^970` round
(to nearest, ties to even) past the largest finite double. -/
def floatMaxThreshold : ℕ := 2 ^ 1024 - 2 ^ 970

/-- Python `float(n)` on an `int`: raises `OverflowError` when the rounded
value would be infinite.  (The 53-bit rounding of in-range integers is not
modelled; no claim depends on it.) -/
def floatOfInt (n : ℤ) : Except String PyFloat :=
  if floatMaxThreshold ≤ n.natAbs then .error "OverflowError"
  else .ok (.finite (mkRat n 1))

/-- Value of a digit string, most significant first. -/
def digitsVal (ds : List Char) : ℕ :=
  ds.foldl (fun a c => a * 10 + (c.toNat - 48)) 0

/-- The exact rational `(sign) m * 10^e`, built with `mkRat` (which the
kernel evaluates, unlike the `Rat` field operations). -/
def ratOfDigits (neg : Bool) (m : ℕ) (e : ℤ) : ℚ :=
  let n : ℤ := if neg then -(m : ℤ) else (m : ℤ)
  if 0 ≤ e then mkRat (n * (10 : ℤ) ^ e.toNat) 1
  else mkRat n ((10 : ℕ) ^ (-e).toNat)

/-- Assemble a parsed decimal literal `(sign) m * 10^e` into a `PyFloat`
the way C `strtod` (hence Python `float(str)`) does: overflow goes to the
infinities (no exception).  Deep underflow collapses to `0`; gradual
rounding of tiny values is not modelled (no claim depends on it). -/
def decToFloat (neg : Bool) (m : ℕ) (e : ℤ) : PyFloat :=
  if m = 0 then .finite 0
  else if 2000 < e then (if neg then .ninf else .inf)
  else if e < -2000 then .finite 0
  else if mkRat (floatMaxThreshold : ℤ) 1 ≤ ratOfDigits false m e then
    (if neg then .ninf else .inf)
  else .finite (ratOfDigits neg m e)

/-- Parse the optional exponent suffix of a float literal (input already
lower-cased).  `[]` means exponent `0`; anything else must be
`e(sign)digits` consuming the whole rest. -/
def parseExpSuffix : List Char → Option ℤ
  | [] => some 0
  | 'e' :: rest =>
    let (eneg, rest) := match rest with
      | '+' :: r => (false, r)
      | '-' :: r => (true, r)
      | r => (false, r)
    let ds := rest.takeWhile Char.isDigit
    if ds.isEmpty ∨ rest.length ≠ ds.length then Option.none
    else some (if eneg then -(digitsVal ds : ℤ) else (digitsVal ds : ℤ))
  | _ => Option.none

/-- Parse an unsigned decimal float literal body (already lower-cased,
sign already stripped): `digits [. digits] [exp]` or `. digits [exp]`. -/
def parseDecimalBody (neg : Bool) (cs : List Char) : Option PyFloat :=
  let ip := cs.takeWhile Char.isDigit
  let rest := cs.drop ip.length
  match rest with
  | '.' :: rest2 =>
    let fp := rest2.takeWhile Char.isDigit
    let rest3 := rest2.drop fp.length
    if ip.isEmpty ∧ fp.isEmpty then Option.none
    else
      (parseExpSuffix rest3).map fun e =>
        decToFloat neg (digitsVal (ip ++ fp)) (e - (fp.length : ℤ))
  | _ =>
    if ip.isEmpty then Option.none
    else (parseExpSuffix rest).map fun e => decToFloat neg (digitsVal ip) e

/-- Python `float(s)` on an already-stripped string: returns `none` where
Python raises `ValueError` (the callers in the source catch that).
Case-insensitive `inf` / `infinity` / `nan` are accepted; digit-group
underscores and locale forms are not modelled. -/
def pyParseFloat (s : String) : Option PyFloat :=
  let cs := s.data.map lowerChar
  let (neg, cs) := match cs with
    | '+' :: r => (false, r)
    | '-' :: r => (true, r)
    | r => (false, r)
  if cs = ['i', 'n', 'f'] ∨ cs = ['i', 'n', 'f', 'i', 'n', 'i', 't', 'y'] then
    some (if neg then .ninf else .inf)
  else if cs = ['n', 'a', 'n'] then some .nan
  else parseDecimalBody neg cs

/-- Python `str(f)` for a float.  Whole-valued floats below `10^16` render
as digits followed by `".0"`, exactly as CPython does; the rendering of
other finite floats (CPython shortest round-trip repr, scientific notation
for large exponents) is not reproduced digit-for-digit — it is only kept
nonempty, which is all downstream truthiness tests observe.  No claim
depends on that branch. -/
def floatRepr : PyFloat → String
  | .nan => "nan"
  | .inf => "inf"
  | .ninf => "-inf"
  | .finite q =>
    if q.den = 1 ∧ q.num.natAbs < 10 ^ 16 then toString q.num ++ ".0"
    else toString q.num ++ "/" ++ toString q.den

/-- Source `to_string` (lines 9–17).  Total: `str()` never raises on the
types involved.  Note Python `bool` passes the `isinstance(value, (int,
float))` test, so `to_string(True) = "True"`. -/
def to_string : PyValue → String
  | .str s => pyStrip s
  | .bool b => pyStrip (if b then "True" else "False")
  | .int n => pyStrip (toString n)
  | .float f => if f = .nan then "" else pyStrip (floatRepr f)
  | _ => ""

/-- Python `int(q)` on a finite float: truncation toward zero. -/
def truncRat (q : ℚ) : ℤ := q.num.tdiv (q.den : ℤ)

/-- Source `to_int` (lines 20–32).  The string branch is wrapped in
`try/except` in the source, so parse failures and non-finite parses
degrade to `0`; but `int(value)` on a float argument (line 26) is *not*
guarded, so an infinite float raises an uncaught `OverflowError`. -/
def to_int : PyValue → Except String ℤ
  | .bool b => .ok (if b then 1 else 0)
  | .int n => .ok n
  | .float .nan => .ok 0
  | .float .inf => .error "OverflowError"
  | .float .ninf => .error "OverflowError"
  | .float (.finite q) => .ok (truncRat q)
  | .str s =>
    match pyParseFloat (pyStrip s) with
    | some (.finite q) => .ok (truncRat q)
    | _ => .ok 0
  | _ => .ok 0

/-- Source `to_float` (lines 35–45).  The string branch is guarded by
`try/except`; the numeric branch's `float(value)` (line 39) is not, so an
over-range `int` raises an uncaught `OverflowError`. -/
def to_float : PyValue → Except String PyFloat
  | .bool b => .ok (.finite (if b then 1 else 0))
  | .int n => floatOfInt n
  | .float .nan => .ok (.finite 0)
  | .float f => .ok f
  | .str s =>
    match pyParseFloat (pyStrip s) with
    | some f => .ok f
    | _ => .ok (.finite 0)
  | _ => .ok (.finite 0)

/-- Source `detect_retweet` (lines 48–52). -/
def detect_retweet (text : String) : Bool :=
  let snippet := pyLStrip text
  if snippet = "" then false
  else charsStartWith (snippet.data.map lowerChar) "rt @".data

/-- Source `normalize_created_at` (lines 98–113) restricted to the value
shapes of `PyValue`; the pandas `Timestamp` branch is outside the model. -/
def normalize_created_at : PyValue → Option String
  | .none => Option.none
  | .str s => (let t := pyStrip s; if t = "" then Option.none else some t)
  | v => (let t := to_string v; if t = "" then Option.none else some t)

instance {ε α : Type} [DecidableEq ε] [DecidableEq α] : DecidableEq (Except ε α) := fun a b =>
  match a, b with
  | .error e, .error f =>
    if h : e = f then .isTrue (by rw [h]) else .isFalse (by intro hc; cases hc; exact h rfl)
  | .ok x, .ok y =>
    if h : x = y then .isTrue (by rw [h]) else .isFalse (by intro hc; cases hc; exact h rfl)
  | .error _, .ok _ => .isFalse (by intro hc; cases hc)
  | .ok _, .error _ => .isFalse (by intro hc; cases hc)

-- sanity checks of the coercion layer on concrete values
example : to_string (.str "  hi ") = "hi" := by decide
example : to_string (.bool true) = "True" := by decide
example : to_string (.int (-7)) = "-7" := by decide
example : to_string (.float (.finite 2)) = "2.0" := by decide
example : to_string (.float .nan) = "" := by decide
example : to_string (.list []) = "" := by decide
example : to_int (.str " 3.9 ") = .ok 3 := by decide
example : to_int (.str "-3.9") = .ok (-3) := by decide
example : to_int (.str "abc") = .ok 0 := by decide
example : to_int (.str "inf") = .ok 0 := by decide
example : to_int (.float .inf) = .error "OverflowError" := by decide
example : to_int (.bool true) = .ok 1 := by decide
example : to_float (.str "nan") = .ok .nan := by decide
example : to_float (.str "2.5e1") = .ok (.finite 25) := by decide
example : to_float (.int 2) = .ok (.finite 2) := by decide
example : detect_retweet "  RT @alice: hi" = true := by decide
example : detect_retweet "I love RT culture" = false := by decide

/-! ## Tweet Record Store (source lines 147–185) -/

/-- Canonical tweet record: one value of `tweet_lookup` (lines 177–185). -/
structure TweetRec where
  cluster : String
  cluster_prob : PyFloat
  username : String
  created_at : Option String
  full_text : String
  favorite_count : ℤ
  reply_to_tweet_id : String
deriving DecidableEq

/-- Python `record.get(k)` on one row of `tweets_df.to_dict("records")`; a
missing key yields Python `None`. -/
def rowGet (row : List (String × PyValue)) (k : String) : PyValue :=
  match row.find? (fun p => decide (p.1 = k)) with
  | some p => p.2
  | _ => .none

/-- The dict literal of lines 177–185, evaluated field by field in source
order; the first uncaught coercion exception aborts (and none of the
guarded ones can). -/
def buildTweetRec (row : List (String × PyValue)) : Except String TweetRec := do
  let cluster := to_string (rowGet row "cluster")
  let cluster_prob ← to_float (rowGet row "cluster_prob")
  let username := to_string (rowGet row "username")
  let created_at := normalize_created_at (rowGet row "created_at")
  let full_text := to_string (rowGet row "full_text")
  let favorite_count ← to_int (rowGet row "favorite_count")
  let reply_to := to_string (rowGet row "reply_to_tweet_id")
  pure ⟨cluster, cluster_prob, username, created_at, full_text, favorite_count, reply_to⟩

/-- Python dict assignment `m[k] = v`: replace in place when the key
exists (keeping its position in insertion order), append otherwise. -/
def insertKV {α : Type} (m : List (String × α)) (k : String) (v : α) : List (String × α) :=
  if m.any (fun p => decide (p.1 = k)) then
    m.map (fun p => if p.1 = k then (k, v) else p)
  else m ++ [(k, v)]

/-- The `tweet_lookup` building loop (lines 172–185), with the dict
accumulated explicitly. -/
def tweet_lookup_aux (acc : List (String × TweetRec)) :
    List (List (String × PyValue)) → Except String (List (String × TweetRec))
  | [] => .ok acc
  | row :: rest =>
    let tid := to_string (rowGet row "tweet_id")
    if tid = "" then tweet_lookup_aux acc rest
    else
      match buildTweetRec row with
      | .error e => .error e
      | .ok r => tweet_lookup_aux (insertKV acc tid r) rest

/-- The `tweet_lookup` dict built from the dataframe's record list. -/
def tweet_lookup (rows : List (List (String × PyValue))) :
    Except String (List (String × TweetRec)) :=
  tweet_lookup_aux [] rows

/-! ## Forest Loader & Merger (source lines 199–209) -/

/-- One pass of the `combined_roots` loop over one source forest:
insertion order is iteration order, existing roots are never replaced. -/
def insertRoots (inc : Bool) :
    List (PyValue × PyValue) → List (String × PyValue × Bool) → List (String × PyValue × Bool)
  | [], acc => acc
  | kv :: rest, acc =>
    let root_id := to_string kv.1
    if root_id = "" then insertRoots inc rest acc
    else if acc.any (fun e => decide (e.1 = root_id)) then insertRoots inc rest acc
    else insertRoots inc rest (acc ++ [(root_id, kv.2, inc)])

/-- Source `combined_roots` (lines 199–209): complete forest first with
`is_incomplete = False`, then the incomplete forest. -/
def combined_roots (trees_data incomplete_data : List (PyValue × PyValue)) :
    List (String × PyValue × Bool) :=
  insertRoots true incomplete_data (insertRoots false trees_data [])

example :
    (combined_roots [(.str "a", .int 1), (.str "b", .int 2)]
        [(.str "a", .int 9), (.str "c", .int 3)]).map
        (fun e => (e.1, (match e.2.1 with | .int n => n | _ => 0), e.2.2))
      = [("a", 1, false), ("b", 2, false), ("c", 3, true)] := by decide

/-! ## Helper lemmas about stripped digit strings -/

theorem digitChar_not_space {m : ℕ} (h : m < 10) : isPySpace (Nat.digitChar m) = false := by
  interval_cases m <;> decide

theorem toDigitsCore_not_space (fuel : ℕ) :
    ∀ (n : ℕ) (acc : List Char), (∀ c ∈ acc, isPySpace c = false) →
      ∀ c ∈ Nat.toDigitsCore 10 fuel n acc, isPySpace c = false := by
  induction fuel with
  | zero => intro n acc hacc c hc; exact hacc c hc
  | succ f ih =>
    intro n acc hacc c hc
    rw [Nat.toDigitsCore] at hc
    have hd : ∀ x ∈ Nat.digitChar (n % 10) :: acc, isPySpace x = false := by
      intro x hx
      rcases List.mem_cons.1 hx with rfl | hx
      · exact digitChar_not_space (Nat.mod_lt _ (by norm_num))
      · exact hacc x hx
    by_cases hz : n / 10 = 0
    · rw [if_pos hz] at hc; exact hd c hc
    · rw [if_neg hz] at hc; exact ih _ _ hd c hc

theorem natRepr_not_space (n : ℕ) : ∀ c ∈ (Nat.repr n).data, isPySpace c = false := by
  intro c hc
  exact toDigitsCore_not_space _ _ [] (by simp) c hc

theorem intRepr_not_space (n : ℤ) : ∀ c ∈ (toString n).data, isPySpace c = false := by
  cases n with
  | ofNat m => exact natRepr_not_space m
  | negSucc m =>
    intro c hc
    have : (toString (Int.negSucc m)).data = '-' :: (Nat.repr (m + 1)).data := by
      show (Int.repr (Int.negSucc m)).data = _
      rw [Int.repr]
      simp [String.data_append]
    rw [this] at hc
    rcases List.mem_cons.1 hc with rfl | hc
    · decide
    · exact natRepr_not_space _ c hc

theorem dropWhile_eq_self_of_not {l : List Char} {p : Char → Bool}
    (h : ∀ c ∈ l, p c = false) : l.dropWhile p = l := by
  cases l with
  | nil => rfl
  | cons a as =>
    rw [List.dropWhile_cons, if_neg]
    simp [h a (List.mem_cons_self a as)]

theorem pyStrip_eq_self {s : String} (h : ∀ c ∈ s.data, isPySpace c = false) :
    pyStrip s = s := by
  unfold pyStrip
  rw [dropWhile_eq_self_of_not h,
    dropWhile_eq_self_of_not (by intro c hc; exact h c (List.mem_reverse.1 hc)),
    List.reverse_reverse]

theorem to_string_int_eq (n : ℤ) : to_string (.int n) = toString n :=
  pyStrip_eq_self (intRepr_not_space n)

/-- Values that are neither strings nor numeric in Python's sense (note
Python `bool` counts as numeric for `isinstance(value, (int, float))`). -/
def isNonNumericValue : PyValue → Bool
  | .none => true
  | .list _ => true
  | .dict _ => true
  | _ => false

theorem mem_insertKV {α : Type} {m : List (String × α)} {k : String} {v : α} {p : String × α}
    (h : p ∈ insertKV m k v) : p = (k, v) ∨ p ∈ m := by
  unfold insertKV at h
  by_cases hc : m.any (fun q => decide (q.1 = k))
  · rw [if_pos hc] at h
    rcases List.mem_map.1 h with ⟨q, hq, hpq⟩
    by_cases hqk : q.1 = k
    · left; rw [← hpq, if_pos hqk]
    · right; rw [← hpq, if_neg hqk]; exact hq
  · rw [if_neg hc] at h
    rcases List.mem_append.1 h with h | h
    · right; exact h
    · left; simpa using h

theorem buildTweetRec_favorite {row : List (String × PyValue)} {r : TweetRec}
    (h : buildTweetRec row = .ok r) :
    to_int (rowGet row "favorite_count") = .ok r.favorite_count := by
  unfold buildTweetRec at h
  cases hcp : to_float (rowGet row "cluster_prob") with
  | error e => rw [hcp] at h; simp [Bind.bind, Except.bind] at h
  | ok cp =>
    rw [hcp] at h
    cases hfc : to_int (rowGet row "favorite_count") with
    | error e => rw [hfc] at h; simp [Bind.bind, Except.bind] at h
    | ok fc =>
      rw [hfc] at h
      simp only [Bind.bind, Except.bind, pure, Except.pure, Except.ok.injEq] at h
      rw [← h]

theorem tweet_lookup_aux_mem {rows : List (List (String × PyValue))} :
    ∀ {acc store : List (String × TweetRec)},
      tweet_lookup_aux acc rows = .ok store → ∀ p ∈ store,
        (∃ row ∈ rows, to_int (rowGet row "favorite_count") = .ok p.2.favorite_count) ∨
          p ∈ acc := by
  induction rows with
  | nil =>
    intro acc store h p hp
    right
    cases h
    exact hp
  | cons row rest ih =>
    intro acc store h p hp
    unfold tweet_lookup_aux at h
    by_cases ht : to_string (rowGet row "tweet_id") = ""
    · rw [if_pos ht] at h
      rcases ih h p hp with ⟨row2, hr, he⟩ | hacc
      · exact Or.inl ⟨row2, List.mem_cons_of_mem _ hr, he⟩
      · exact Or.inr hacc
    · rw [if_neg ht] at h
      cases hb : buildTweetRec row with
      | error e => rw [hb] at h; cases h
      | ok r =>
        rw [hb] at h
        rcases ih h p hp with ⟨row2, hr, he⟩ | hacc
        · exact Or.inl ⟨row2, List.mem_cons_of_mem _ hr, he⟩
        · rcases mem_insertKV hacc with rfl | hacc2
          · exact Or.inl ⟨row, List.mem_cons_self _ _, buildTweetRec_favorite hb⟩
          · exact Or.inr hacc2

/-- C2: claimed — no coercion function ever raises, for every input value
including infinite floats.  The code contradicts this: `to_int` applies
Python `int()` to an unguarded float (line 26), which raises
`OverflowError` on the infinities, and `to_float` applies `float()` to an
unguarded int (line 39), which raises `OverflowError` past the double
range.  This theorem evaluates the embedded code at the failing inputs. -/
theorem coercion_raises_on_nonfinite :
    to_int (.float .inf) = .error "OverflowError" ∧
    to_int (.float .ninf) = .error "OverflowError" ∧
    to_float (.int (2 ^ 1024)) = .error "OverflowError" := by
  refine ⟨rfl, rfl, ?_⟩
  have h : floatMaxThreshold ≤ ((2 : ℤ) ^ 1024).natAbs := by
    have h2 : ((2 : ℤ) ^ 1024).natAbs = 2 ^ 1024 := by
      rw [Int.natAbs_pow]
      rfl
    rw [h2, floatMaxThreshold]
    exact Nat.sub_le _ _
  show floatOfInt (2 ^ 1024) = .error "OverflowError"
  rw [floatOfInt, if_pos h]

/-- C3 counterexample: the claim says whole-valued floats are rendered
without a fractional part (`coerce_string(2.0) = "2"`); the code renders
`str(2.0) = "2.0"` and only strips whitespace. -/
theorem to_string_whole_float_counterexample :
    to_string (.float (.finite 2)) = "2.0" ∧ ("2.0" : String) ≠ "2" := by
  decide

/-- C3 (amended): `coerce_string` of a NaN float is the empty string; a
whole-valued float (in the non-scientific display range) renders as its
integer digits followed by `".0"`; any value that is neither string nor
numeric coerces to the empty string. -/
theorem to_string_float_spec (q : ℚ) (h1 : q.den = 1) (h2 : q.num.natAbs < 10 ^ 16) :
    to_string (.float .nan) = "" ∧
    to_string (.float (.finite q)) = toString q.num ++ ".0" ∧
    (∀ v : PyValue, isNonNumericValue v = true → to_string v = "") := by
  refine ⟨rfl, ?_, ?_⟩
  · show (if (PyFloat.finite q) = .nan then "" else pyStrip (floatRepr (.finite q))) = _
    rw [if_neg (by simp)]
    show pyStrip (if q.den = 1 ∧ q.num.natAbs < 10 ^ 16 then toString q.num ++ ".0"
      else toString q.num ++ "/" ++ toString q.den) = _
    rw [if_pos ⟨h1, h2⟩]
    refine pyStrip_eq_self ?_
    intro c hc
    rw [String.data_append] at hc
    rcases List.mem_append.1 hc with hc | hc
    · exact intRepr_not_space _ c hc
    · rcases List.mem_cons.1 hc with rfl | hc
      · decide
      · rcases List.mem_cons.1 hc with rfl | hc
        · decide
        · cases hc
  · intro v hv
    cases v <;> first | rfl | cases hv

/-- Witness for C3's amended theorem: the hypotheses hold at `q = 2`. -/
theorem to_string_float_spec_witness :
    to_string (.float .nan) = "" ∧
    to_string (.float (.finite 2)) = toString (2 : ℚ).num ++ ".0" ∧
    (∀ v : PyValue, isNonNumericValue v = true → to_string v = "") :=
  to_string_float_spec 2 (by decide) (by decide)

/-- C4 counterexample: the claim says every canonical record's
`favorite_count` is non-negative; the store applies `to_int` with no
clamping, so a raw value of `-1` is stored as `-1 < 0`. -/
theorem favorite_count_negative_counterexample :
    tweet_lookup [[("tweet_id", .str "t"), ("favorite_count", .int (-1))]]
      = .ok [("t", ⟨"", .finite 0, "", Option.none, "", -1, ""⟩)] ∧
    ¬ (0 ≤ (-1 : ℤ)) := by
  decide

/-- C4 (amended): every canonical record's `favorite_count` is the integer
coercion of the raw `favorite_count` of the row it was built from (the
store does not clamp, so it is non-negative only when the raw value is);
NaN raw values coerce to `0`, and unparsable string raw values coerce to
`0`. -/
theorem tweet_lookup_favorite_count (rows : List (List (String × PyValue)))
    (store : List (String × TweetRec)) (h : tweet_lookup rows = .ok store) :
    (∀ p ∈ store, ∃ row ∈ rows,
        to_int (rowGet row "favorite_count") = .ok p.2.favorite_count) ∧
    to_int (.float .nan) = .ok 0 ∧
    (∀ s : String, pyParseFloat (pyStrip s) = Option.none → to_int (.str s) = .ok 0) := by
  refine ⟨?_, rfl, ?_⟩
  · intro p hp
    rcases tweet_lookup_aux_mem h p hp with hsrc | hnil
    · exact hsrc
    · cases hnil
  · intro s hs
    show (match pyParseFloat (pyStrip s) with
      | some (.finite q) => Except.ok (truncRat q)
      | _ => Except.ok 0) = Except.ok 0
    rw [hs]

/-- Witness for C4's amended theorem: a concrete store built from one row
with a NaN raw favorite count. -/
theorem tweet_lookup_favorite_count_witness :
    (∀ p ∈ [("t", (⟨"", .finite 0, "", Option.none, "", 0, ""⟩ : TweetRec))],
      ∃ row ∈ [[("tweet_id", PyValue.str "t"), ("favorite_count", PyValue.float .nan)]],
        to_int (rowGet row "favorite_count") = .ok p.2.favorite_count) ∧
    to_int (.float .nan) = .ok 0 ∧
    (∀ s : String, pyParseFloat (pyStrip s) = Option.none → to_int (.str s) = .ok 0) :=
  tweet_lookup_favorite_count _ _ (by decide)

/-! ## Lemmas about the forest merger -/

theorem insertRoots_append (inc : Bool) :
    ∀ (src : List (PyValue × PyValue)) (acc : List (String × PyValue × Bool)),
      ∃ extra, insertRoots inc src acc = acc ++ extra := by
  intro src
  induction src with
  | nil => intro acc; exact ⟨[], by simp [insertRoots]⟩
  | cons kv rest ih =>
    intro acc
    unfold insertRoots
    by_cases h1 : to_string kv.1 = ""
    · rw [if_pos h1]; exact ih acc
    · rw [if_neg h1]
      by_cases h2 : acc.any (fun e => decide (e.1 = to_string kv.1))
      · rw [if_pos h2]; exact ih acc
      · rw [if_neg h2]
        rcases ih (acc ++ [(to_string kv.1, kv.2, inc)]) with ⟨extra, he⟩
        exact ⟨(to_string kv.1, kv.2, inc) :: extra, by rw [he]; simp⟩

theorem find?_append_stable {α : Type} {l : List α} {p : α → Bool} {x : α}
    (extra : List α) (h : l.find? p = some x) : (l ++ extra).find? p = some x := by
  rw [List.find?_append, h]
  rfl

theorem insertRoots_keys_nodup (inc : Bool) :
    ∀ (src : List (PyValue × PyValue)) (acc : List (String × PyValue × Bool)),
      (acc.map (fun e => e.1)).Nodup →
      ((insertRoots inc src acc).map (fun e => e.1)).Nodup := by
  intro src
  induction src with
  | nil => intro acc h; simpa [insertRoots] using h
  | cons kv rest ih =>
    intro acc h
    unfold insertRoots
    by_cases h1 : to_string kv.1 = ""
    · rw [if_pos h1]; exact ih acc h
    · rw [if_neg h1]
      by_cases h2 : acc.any (fun e => decide (e.1 = to_string kv.1))
      · rw [if_pos h2]; exact ih acc h
      · rw [if_neg h2]
        refine ih _ ?_
        rw [List.map_append, List.nodup_append]
        refine ⟨h, by simp, ?_⟩
        intro a ha hb
        simp only [List.map_cons, List.map_nil, List.mem_singleton] at hb
        subst hb
        rcases List.mem_map.1 ha with ⟨e, he, hek⟩
        exact h2 (List.any_eq_true.2 ⟨e, he, by simp [hek]⟩)

theorem insertRoots_cons (inc : Bool) (kv : PyValue × PyValue)
    (rest : List (PyValue × PyValue)) (acc : List (String × PyValue × Bool)) :
    insertRoots inc (kv :: rest) acc =
      if to_string kv.1 = "" then insertRoots inc rest acc
      else if acc.any (fun e => decide (e.1 = to_string kv.1)) then insertRoots inc rest acc
      else insertRoots inc rest (acc ++ [(to_string kv.1, kv.2, inc)]) := rfl

theorem insertRoots_finds (inc : Bool) (r : String) (hr : r ≠ "") :
    ∀ (src : List (PyValue × PyValue)) (acc : List (String × PyValue × Bool)),
      (∃ kv ∈ src, to_string kv.1 = r) →
      acc.find? (fun e => decide (e.1 = r)) = Option.none →
      ∃ kv ∈ src, to_string kv.1 = r ∧
        (insertRoots inc src acc).find? (fun e => decide (e.1 = r)) = some (r, kv.2, inc) := by
  intro src
  induction src with
  | nil => rintro acc ⟨kv, hkv, _⟩ _; cases hkv
  | cons kv0 rest ih =>
    intro acc hex hnone
    by_cases h0 : to_string kv0.1 = r
    · have h1 : ¬ to_string kv0.1 = "" := by rw [h0]; exact hr
      have h2 : ¬ acc.any (fun e => decide (e.1 = to_string kv0.1)) := by
        rw [h0]
        intro hany
        rcases List.any_eq_true.1 hany with ⟨e, he, hek⟩
        have := List.find?_eq_none.1 hnone e he
        simp at hek
        simp [hek] at this
      have hstep : insertRoots inc (kv0 :: rest) acc
          = insertRoots inc rest (acc ++ [(to_string kv0.1, kv0.2, inc)]) := by
        rw [insertRoots_cons, if_neg h1, if_neg h2]
      have hfound : (acc ++ [(to_string kv0.1, kv0.2, inc)]).find?
          (fun e => decide (e.1 = r)) = some (r, kv0.2, inc) := by
        rw [List.find?_append, hnone]
        simp [h0]
      rcases insertRoots_append inc rest (acc ++ [(to_string kv0.1, kv0.2, inc)]) with ⟨extra, he⟩
      refine ⟨kv0, List.mem_cons_self _ _, h0, ?_⟩
      rw [hstep, he]
      exact find?_append_stable _ hfound
    · have hex2 : ∃ kv ∈ rest, to_string kv.1 = r := by
        rcases hex with ⟨kv, hkv, hkvr⟩
        rcases List.mem_cons.1 hkv with rfl | hkv
        · exact absurd hkvr h0
        · exact ⟨kv, hkv, hkvr⟩
      by_cases h1 : to_string kv0.1 = ""
      · have hstep : insertRoots inc (kv0 :: rest) acc = insertRoots inc rest acc := by
          rw [insertRoots_cons, if_pos h1]
        rcases ih acc hex2 hnone with ⟨kv, hkv, hkvr, hf⟩
        exact ⟨kv, List.mem_cons_of_mem _ hkv, hkvr, by rw [hstep]; exact hf⟩
      · by_cases h2 : acc.any (fun e => decide (e.1 = to_string kv0.1))
        · have hstep : insertRoots inc (kv0 :: rest) acc = insertRoots inc rest acc := by
            rw [insertRoots_cons, if_neg h1, if_pos h2]
          rcases ih acc hex2 hnone with ⟨kv, hkv, hkvr, hf⟩
          exact ⟨kv, List.mem_cons_of_mem _ hkv, hkvr, by rw [hstep]; exact hf⟩
        · have hstep : insertRoots inc (kv0 :: rest) acc
              = insertRoots inc rest (acc ++ [(to_string kv0.1, kv0.2, inc)]) := by
            rw [insertRoots_cons, if_neg h1, if_neg h2]
          have hnone2 : (acc ++ [(to_string kv0.1, kv0.2, inc)]).find?
              (fun e => decide (e.1 = r)) = Option.none := by
            rw [List.find?_append, hnone]
            simp [h0]
          rcases ih (acc ++ [(to_string kv0.1, kv0.2, inc)]) hex2 hnone2 with ⟨kv, hkv, hkvr, hf⟩
          exact ⟨kv, List.mem_cons_of_mem _ hkv, hkvr, by rw [hstep]; exact hf⟩

/-- C6: a root id present in both forests resolves in `combined_roots` to
the complete-forest tree with `is_incomplete = false` (the complete forest
is inserted first and existing roots are never replaced), and the merged
forest's root ids are pairwise distinct. -/
theorem combined_roots_complete_wins (trees incomplete : List (PyValue × PyValue))
    (r : String) (hne : r ≠ "")
    (hc : ∃ kv ∈ trees, to_string kv.1 = r)
    (hi : ∃ kv ∈ incomplete, to_string kv.1 = r) :
    (∃ kv ∈ trees, to_string kv.1 = r ∧
      (combined_roots trees incomplete).find? (fun e => decide (e.1 = r))
        = some (r, kv.2, false)) ∧
    ((combined_roots trees incomplete).map (fun e => e.1)).Nodup := by
  constructor
  · rcases insertRoots_finds false r hne trees [] hc (by rfl) with ⟨kv, hkv, hkvr, hf⟩
    rcases insertRoots_append true incomplete (insertRoots false trees []) with ⟨extra, he⟩
    refine ⟨kv, hkv, hkvr, ?_⟩
    rw [combined_roots, he]
    exact find?_append_stable _ hf
  · exact insertRoots_keys_nodup true incomplete _
      (insertRoots_keys_nodup false trees [] (by simp))

/-- Witness for C6 at a concrete pair of forests sharing root `"a"`. -/
theorem combined_roots_complete_wins_witness :
    (∃ kv ∈ [((PyValue.str "a"), PyValue.int 1)], to_string kv.1 = "a" ∧
      (combined_roots [((PyValue.str "a"), PyValue.int 1)]
          [((PyValue.str "a"), PyValue.int 9)]).find? (fun e => decide (e.1 = "a"))
        = some ("a", kv.2, false)) ∧
    ((combined_roots [((PyValue.str "a"), PyValue.int 1)]
        [((PyValue.str "a"), PyValue.int 9)]).map (fun e => e.1)).Nodup :=
  combined_roots_complete_wins _ _ "a" (by decide)
    ⟨(PyValue.str "a", PyValue.int 1), by simp, by decide⟩
    ⟨(PyValue.str "a", PyValue.int 9), by simp, by decide⟩

/-! ## Path Selector (source lines 55–95) -/

/-- Python `children.get(node, [])` on the prebuilt children map. -/
def childrenGet (children : List (String × List String)) (node : String) : List String :=
  match children.find? (fun p => decide (p.1 = node)) with
  | some p => p.2
  | _ => []


/-- The entry-normalisation loop shared by lines 66–70 and 243–247: coerce
each entry to a string and drop the empty ones. -/
def normCore (entries : List PyValue) : List String :=
  entries.filterMap (fun e =>
    let t := to_string e
    if t = "" then Option.none else some t)

/-- Normalisation of one precomputed path candidate (lines 64–74):
non-sequences are skipped, entries are coerced to strings, empty entries
are dropped, and the root id is prepended when the result does not already
start with it.  `none` stands for `continue`. -/
def normalizePath (root_id : String) (path : PyValue) : Option (List String) :=
  match path with
  | .list entries =>
    match normCore entries with
    | [] => Option.none
    | h :: t => some (if h = root_id then h :: t else root_id :: h :: t)
  | _ => Option.none

/-- The normalized candidates of the precomputed-path dict, in iteration
order (`paths.values()`, which is dict insertion order). -/
def pathCandidates (paths : PyValue) (root_id : String) : List (List String) :=
  match paths with
  | .dict entries => entries.filterMap (fun kv => normalizePath root_id kv.2)
  | _ => []

/-- The strict-improvement fold of lines 63–76: a later candidate replaces
the running best only when strictly longer. -/
def bestCandidate (cands : List (List String)) : List String :=
  cands.foldl (fun best n => if best.length < n.length then n else best) []

/-- The stack-based depth-first search of lines 80–94.  The stack is kept
top-first (Python appends and pops at the tail; children are pushed here
in reverse so that pop order coincides).  `fuel` bounds loop iterations;
`none` models non-termination (a cyclic children relation spins forever in
the source). -/
def dfsLoop (children : List (String × List String)) :
    ℕ → List (List String) → List String → Option (List String)
  | _, [], best => some best
  | 0, _ :: _, _ => Option.none
  | fuel + 1, p :: stack, best =>
    let next := childrenGet children (p.getLastD "")
    if next = [] then
      dfsLoop children fuel stack (if best.length < p.length then p else best)
    else
      let pushes := next.filterMap (fun c =>
        let cid := pyStrip c
        if cid = "" then Option.none else some (p ++ [cid]))
      dfsLoop children fuel (pushes.reverse ++ stack) best

/-- Source `pick_longest_path` (lines 55–95): the precomputed-path scan, then the
DFS fallback when no candidate survived (when one did, line 78 returns it
before the DFS is reached, and the running best entering the DFS is
always `[]`). -/
def pick_longest_path (paths : PyValue) (root_id : String)
    (children : List (String × List String)) (fuel : ℕ) : Option (List String) :=
  let best := bestCandidate (pathCandidates paths root_id)
  if best = [] then dfsLoop children fuel [[root_id]] []
  else some best

example :
    pick_longest_path
      (.dict [(.str "a", .list [.str "R", .str "a"]),
              (.str "b", .list [.str "x", .str "b"])]) "R" [] 0
      = some ["R", "x", "b"] := by decide
example : pick_longest_path .none "R" [] 1 = some ["R"] := by decide
example :
    pick_longest_path .none "R" [("R", ["a", "b"]), ("b", ["c"])] 9
      = some ["R", "b", "c"] := by decide

/-! ## C5: the precomputed-path scan picks the first longest candidate -/

theorem normalizePath_ne_nil {root_id : String} {path : PyValue} {c : List String}
    (h : normalizePath root_id path = some c) : c ≠ [] := by
  cases path <;> unfold normalizePath at h <;> dsimp only at h <;>
    try exact Option.noConfusion h
  case list entries =>
    rcases hF : normCore entries with _ | ⟨a, t⟩ <;> rw [hF] at h
    · exact Option.noConfusion h
    · have h2 : (if a = root_id then a :: t else root_id :: a :: t) = c :=
        Option.some.inj h
      rw [← h2]
      by_cases ha : a = root_id <;> simp [ha]

theorem pathCandidates_ne_nil {paths : PyValue} {root_id : String} {c : List String}
    (h : c ∈ pathCandidates paths root_id) : c ≠ [] := by
  unfold pathCandidates at h
  cases paths <;> try cases h
  case dict entries =>
    rcases List.mem_filterMap.1 h with ⟨kv, _, hn⟩
    exact normalizePath_ne_nil hn

theorem bestCandidate_foldl_spec :
    ∀ (cands : List (List String)) (best : List String),
      (cands.foldl (fun best n => if best.length < n.length then n else best) best = best ∧
        ∀ c ∈ cands, c.length ≤ best.length) ∨
      (∃ i : ℕ, ∃ hi : i < cands.length,
        cands.foldl (fun best n => if best.length < n.length then n else best) best
            = cands[i] ∧
        best.length < cands[i].length ∧
        (∀ j, ∀ hj : j < cands.length, j < i → cands[j].length < cands[i].length) ∧
        (∀ j, ∀ hj : j < cands.length, cands[j].length ≤ cands[i].length)) := by
  intro cands
  induction cands with
  | nil => intro best; left; exact ⟨rfl, by simp⟩
  | cons c rest ih =>
    intro best
    by_cases hc : best.length < c.length
    · rcases ih c with ⟨heq, hall⟩ | ⟨i, hi, heq, hgt, hfirst, hmax⟩
      · right
        refine ⟨0, by simp, ?_, by simpa using hc, ?_, ?_⟩
        · simp only [List.foldl_cons, if_pos hc, List.getElem_cons_zero]; exact heq
        · intro j hj hj0; omega
        · intro j hj
          cases j with
          | zero => simp
          | succ k =>
            simp only [List.getElem_cons_succ, List.getElem_cons_zero]
            exact hall _ (List.getElem_mem _)
      · right
        have hi2 : i + 1 < (c :: rest).length := by simpa using hi
        refine ⟨i + 1, hi2, ?_, ?_, ?_, ?_⟩
        · simp only [List.foldl_cons, if_pos hc, List.getElem_cons_succ]; exact heq
        · simp only [List.getElem_cons_succ]; exact lt_trans hc hgt
        · intro j hj hji
          cases j with
          | zero =>
            simp only [List.getElem_cons_zero, List.getElem_cons_succ]
            exact hgt
          | succ k =>
            simp only [List.getElem_cons_succ]
            exact hfirst k (by simpa using hj) (by omega)
        · intro j hj
          cases j with
          | zero =>
            simp only [List.getElem_cons_zero, List.getElem_cons_succ]
            exact le_of_lt hgt
          | succ k =>
            simp only [List.getElem_cons_succ]
            exact hmax k (by simpa using hj)
    · rcases ih best with ⟨heq, hall⟩ | ⟨i, hi, heq, hgt, hfirst, hmax⟩
      · left
        refine ⟨by simp only [List.foldl_cons, if_neg hc]; exact heq, ?_⟩
        intro d hd
        rcases List.mem_cons.1 hd with rfl | hd
        · omega
        · exact hall d hd
      · right
        have hi2 : i + 1 < (c :: rest).length := by simpa using hi
        refine ⟨i + 1, hi2, ?_, ?_, ?_, ?_⟩
        · simp only [List.foldl_cons, if_neg hc, List.getElem_cons_succ]; exact heq
        · simp only [List.getElem_cons_succ]; omega
        · intro j hj hji
          cases j with
          | zero =>
            simp only [List.getElem_cons_zero, List.getElem_cons_succ]
            omega
          | succ k =>
            simp only [List.getElem_cons_succ]
            exact hfirst k (by simpa using hj) (by omega)
        · intro j hj
          cases j with
          | zero =>
            simp only [List.getElem_cons_zero, List.getElem_cons_succ]
            omega
          | succ k =>
            simp only [List.getElem_cons_succ]
            exact hmax k (by simpa using hj)

/-- C5: when at least one precomputed-path candidate is non-empty after
normalization, `pick_longest_path` returns a longest normalized candidate,
and among candidates of equal maximal length the first one in iteration
order is returned — every earlier candidate is strictly shorter. -/
theorem pick_longest_path_first_longest (paths : PyValue) (root_id : String)
    (children : List (String × List String)) (fuel : ℕ)
    (hne : pathCandidates paths root_id ≠ []) :
    ∃ i : ℕ, ∃ hi : i < (pathCandidates paths root_id).length,
      pick_longest_path paths root_id children fuel
          = some ((pathCandidates paths root_id)[i]) ∧
      (∀ j, ∀ hj : j < (pathCandidates paths root_id).length,
        (pathCandidates paths root_id)[j].length
          ≤ (pathCandidates paths root_id)[i].length) ∧
      (∀ j, ∀ hj : j < (pathCandidates paths root_id).length, j < i →
        (pathCandidates paths root_id)[j].length
          < (pathCandidates paths root_id)[i].length) := by
  rcases bestCandidate_foldl_spec (pathCandidates paths root_id) []
    with ⟨heq, hall⟩ | ⟨i, hi, heq, hpos, hfirst, hmax⟩
  · exfalso
    rcases List.exists_mem_of_ne_nil _ hne with ⟨c, hc⟩
    have hle := hall c hc
    have hcne := pathCandidates_ne_nil hc
    cases c with
    | nil => exact hcne rfl
    | cons a t => simp at hle
  · have hbc : bestCandidate (pathCandidates paths root_id)
        = (pathCandidates paths root_id)[i] := heq
    have hmem : (pathCandidates paths root_id)[i] ∈ pathCandidates paths root_id :=
      List.getElem_mem _
    have hbne : bestCandidate (pathCandidates paths root_id) ≠ [] := by
      rw [hbc]; exact pathCandidates_ne_nil hmem
    refine ⟨i, hi, ?_, hmax, hfirst⟩
    show (if bestCandidate (pathCandidates paths root_id) = []
        then dfsLoop children fuel [[root_id]] []
        else some (bestCandidate (pathCandidates paths root_id))) = _
    rw [if_neg hbne, hbc]

/-- Witness for C5 at the spec's own example: paths
`{"a": ["R","a"], "b": ["x","b"]}` (the second normalizes to
`["R","x","b"]`, length 3, beating length 2). -/
theorem pick_longest_path_first_longest_witness :
    ∃ i : ℕ, ∃ hi : i < (pathCandidates
        (.dict [(.str "a", .list [.str "R", .str "a"]),
                (.str "b", .list [.str "x", .str "b"])]) "R").length,
      pick_longest_path
          (.dict [(.str "a", .list [.str "R", .str "a"]),
                  (.str "b", .list [.str "x", .str "b"])]) "R" [] 0
          = some ((pathCandidates
              (.dict [(.str "a", .list [.str "R", .str "a"]),
                      (.str "b", .list [.str "x", .str "b"])]) "R")[i]) ∧
      (∀ j, ∀ hj : j < (pathCandidates
          (.dict [(.str "a", .list [.str "R", .str "a"]),
                  (.str "b", .list [.str "x", .str "b"])]) "R").length,
        (pathCandidates (.dict [(.str "a", .list [.str "R", .str "a"]),
                  (.str "b", .list [.str "x", .str "b"])]) "R")[j].length
          ≤ (pathCandidates (.dict [(.str "a", .list [.str "R", .str "a"]),
                  (.str "b", .list [.str "x", .str "b"])]) "R")[i].length) ∧
      (∀ j, ∀ hj : j < (pathCandidates
          (.dict [(.str "a", .list [.str "R", .str "a"]),
                  (.str "b", .list [.str "x", .str "b"])]) "R").length, j < i →
        (pathCandidates (.dict [(.str "a", .list [.str "R", .str "a"]),
                  (.str "b", .list [.str "x", .str "b"])]) "R")[j].length
          < (pathCandidates (.dict [(.str "a", .list [.str "R", .str "a"]),
                  (.str "b", .list [.str "x", .str "b"])]) "R")[i].length) :=
  pick_longest_path_first_longest _ "R" [] 0 (by decide)

/-! ## C7: the DFS fallback finds a maximal root-to-leaf path -/

/-- The stripped, non-empty child ids the DFS actually walks from `a`
(the `filterMap` of lines 89–93). -/
def validKids (children : List (String × List String)) (a : String) : List String :=
  (childrenGet children a).filterMap (fun c =>
    let cid := pyStrip c
    if cid = "" then Option.none else some cid)

/-- A DFS walk: nonempty, starts at `root`, consecutive nodes follow the
(stripped) children relation. -/
def IsWalk (children : List (String × List String)) (root : String)
    (p : List String) : Prop :=
  p.head? = some root ∧ p.Chain' (fun a b => b ∈ validKids children a)

/-- A complete root-to-leaf path: a walk whose last node has an empty raw
children bucket (the source's `if not next_children` leaf test). -/
def IsLeafPath (children : List (String × List String)) (root : String)
    (p : List String) : Prop :=
  IsWalk children root p ∧ childrenGet children (p.getLastD "") = []

/-- Acyclicity of the walked relation, as seen from `root`: every walk
visits pairwise-distinct nodes. -/
def AcyclicFrom (children : List (String × List String)) (root : String) : Prop :=
  ∀ p, IsWalk children root p → p.Nodup

theorem getLast?_of_ne_nil {p : List String} (h : p ≠ []) :
    p.getLast? = some (p.getLastD "") := by
  rcases List.exists_cons_of_ne_nil h with ⟨a, t, rfl⟩
  rw [List.getLastD_eq_getLast?]
  cases hl : (a :: t).getLast? with
  | none => simp at hl
  | some x => rfl

theorem IsWalk.ne_nil {children : List (String × List String)} {root : String}
    {p : List String} (h : IsWalk children root p) : p ≠ [] := by
  intro hp
  rw [hp] at h
  cases h.1

theorem IsWalk.extend {children : List (String × List String)} {root : String}
    {p : List String} {b : String} (h : IsWalk children root p)
    (hb : b ∈ validKids children (p.getLastD "")) :
    IsWalk children root (p ++ [b]) := by
  rcases List.exists_cons_of_ne_nil h.ne_nil with ⟨a, t, rfl⟩
  refine ⟨by simpa using h.1, ?_⟩
  rw [List.chain'_append]
  refine ⟨h.2, List.chain'_singleton _, ?_⟩
  intro x hx y hy
  rw [getLast?_of_ne_nil (by simp)] at hx
  cases hx
  cases hy
  exact hb

theorem walk_prefix_extend {children : List (String × List String)} {root : String}
    {p q : List String} (hq : IsWalk children root q) (hpq : p <+: q)
    (hpne : p ≠ []) (hne : p ≠ q) :
    ∃ b, b ∈ validKids children (p.getLastD "") ∧ (p ++ [b]) <+: q := by
  rcases hpq with ⟨t, rfl⟩
  cases t with
  | nil => exact absurd (by simp) hne
  | cons b t2 =>
    refine ⟨b, ?_, ⟨t2, by simp⟩⟩
    have hch := hq.2
    rw [List.chain'_append] at hch
    exact hch.2.2 _ (getLast?_of_ne_nil hpne) b rfl

/-- Partial correctness of the DFS loop: whatever the fuel, a `some`
result that started from a stack of walks, a best that is empty or a leaf
path, and a covered set of leaf paths, is itself empty-or-a-leaf-path and
at least as long as every leaf path. -/
theorem dfsLoop_spec (children : List (String × List String)) (root : String) :
    ∀ (fuel : ℕ) (stack : List (List String)) (best res : List String),
      dfsLoop children fuel stack best = some res →
      (∀ p ∈ stack, IsWalk children root p) →
      (best = [] ∨ IsLeafPath children root best) →
      (∀ q, IsLeafPath children root q →
        q.length ≤ best.length ∨ ∃ p ∈ stack, p <+: q) →
      (res = [] ∨ IsLeafPath children root res) ∧
      (∀ q, IsLeafPath children root q → q.length ≤ res.length) := by
  intro fuel
  induction fuel with
  | zero =>
    intro stack best res hres hstack hbest hcover
    cases stack with
    | nil =>
      cases hres
      refine ⟨hbest, ?_⟩
      intro q hq
      rcases hcover q hq with h | ⟨p, hp, _⟩
      · exact h
      · cases hp
    | cons p rest => cases hres
  | succ fuel ih =>
    intro stack best res hres hstack hbest hcover
    cases stack with
    | nil =>
      cases hres
      refine ⟨hbest, ?_⟩
      intro q hq
      rcases hcover q hq with h | ⟨p, hp, _⟩
      · exact h
      · cases hp
    | cons p rest =>
      have hpwalk : IsWalk children root p := hstack p (List.mem_cons_self _ _)
      rw [dfsLoop] at hres
      by_cases hleaf : childrenGet children (p.getLastD "") = []
      · rw [if_pos hleaf] at hres
        have hpleaf : IsLeafPath children root p := ⟨hpwalk, hleaf⟩
        have hbest2 : (if best.length < p.length then p else best) = [] ∨
            IsLeafPath children root (if best.length < p.length then p else best) := by
          by_cases hlen : best.length < p.length
          · rw [if_pos hlen]; exact Or.inr hpleaf
          · rw [if_neg hlen]; exact hbest
        refine ih rest _ res hres (fun x hx => hstack x (List.mem_cons_of_mem _ hx))
          hbest2 ?_
        intro q hq
        rcases hcover q hq with h | ⟨x, hx, hxq⟩
        · left
          by_cases hlen : best.length < p.length
          · rw [if_pos hlen]; omega
          · rw [if_neg hlen]; exact h
        · rcases List.mem_cons.1 hx with rfl | hx
          · -- q extends p, but p ends at a leaf, so q = p
            left
            have hqp : q = x := by
              by_contra hne
              rcases walk_prefix_extend hq.1 hxq hpwalk.ne_nil
                  (fun h => hne h.symm) with ⟨b, hb, _⟩
              rw [validKids, hleaf] at hb
              cases hb
            rw [hqp]
            by_cases hlen : best.length < x.length
            · rw [if_pos hlen]
            · rw [if_neg hlen]; omega
          · exact Or.inr ⟨x, hx, hxq⟩
      · rw [if_neg hleaf] at hres
        have hpush : (childrenGet children (p.getLastD "")).filterMap (fun c =>
            let cid := pyStrip c
            if cid = "" then Option.none else some (p ++ [cid]))
            = (validKids children (p.getLastD "")).map (fun cid => p ++ [cid]) := by
          rw [validKids, List.map_filterMap]
          congr 1
          funext c
          by_cases hcid : pyStrip c = "" <;> simp [hcid]
        rw [hpush] at hres
        have hstack2 : ∀ x ∈ ((validKids children (p.getLastD "")).map
            (fun cid => p ++ [cid])).reverse ++ rest, IsWalk children root x := by
          intro x hx
          rcases List.mem_append.1 hx with hx | hx
          · rcases List.mem_map.1 (List.mem_reverse.1 hx) with ⟨cid, hcid, rfl⟩
            exact hpwalk.extend hcid
          · exact hstack x (List.mem_cons_of_mem _ hx)
        refine ih _ _ res hres hstack2 hbest ?_
        intro q hq
        rcases hcover q hq with h | ⟨x, hx, hxq⟩
        · exact Or.inl h
        · rcases List.mem_cons.1 hx with rfl | hx
          · right
            have hne : x ≠ q := by
              intro he
              rw [he] at hleaf
              exact hleaf hq.2
            rcases walk_prefix_extend hq.1 hxq hpwalk.ne_nil hne with ⟨b, hb, hbq⟩
            refine ⟨x ++ [b], ?_, hbq⟩
            refine List.mem_append.2 (Or.inl ?_)
            rw [List.mem_reverse]
            exact List.mem_map.2 ⟨b, hb, rfl⟩
          · exact Or.inr ⟨x, List.mem_append.2 (Or.inr hx), hxq⟩

/-! ### Termination of the DFS for acyclic children relations -/

/-- All stripped child ids appearing anywhere in the children map. -/
def allKids (children : List (String × List String)) : List String :=
  children.flatMap (fun e => e.2.filterMap (fun c =>
    let cid := pyStrip c
    if cid = "" then Option.none else some cid))

theorem mem_of_childrenGet (children : List (String × List String)) (a : String) :
    childrenGet children a = [] ∨ ∃ e ∈ children, childrenGet children a = e.2 := by
  unfold childrenGet
  cases hf : children.find? (fun p => decide (p.1 = a)) with
  | none => exact Or.inl rfl
  | some e => exact Or.inr ⟨e, List.mem_of_find?_eq_some hf, rfl⟩

theorem validKids_subset_allKids {children : List (String × List String)}
    {a b : String} (hb : b ∈ validKids children a) : b ∈ allKids children := by
  rw [validKids] at hb
  rcases mem_of_childrenGet children a with h | ⟨e, he, h⟩
  · rw [h] at hb; cases hb
  · rw [h] at hb
    rw [allKids]
    exact List.mem_flatMap.2 ⟨e, he, hb⟩

theorem walk_nodes_mem {children : List (String × List String)} {root : String}
    {p : List String} (hw : IsWalk children root p) :
    ∀ x ∈ p, x ∈ root :: allKids children := by
  have main : ∀ (q : List String) (a : String), a ∈ root :: allKids children →
      q.head? = some a → q.Chain' (fun u v => v ∈ validKids children u) →
      ∀ x ∈ q, x ∈ root :: allKids children := by
    intro q
    induction q with
    | nil => intro a _ hh; cases hh
    | cons b t ih =>
      intro a ha hh hch x hx
      have hba : b = a := Option.some.inj hh
      subst hba
      rcases List.mem_cons.1 hx with rfl | hx
      · exact ha
      · cases t with
        | nil => cases hx
        | cons c t2 =>
          have hch2 := List.chain'_cons.1 hch
          exact ih c (List.mem_cons_of_mem _ (validKids_subset_allKids hch2.1))
            rfl hch2.2 x hx
  exact main p root (List.mem_cons_self _ _) hw.1 hw.2

/-- Node-count bound on walk lengths. -/
def nodeBound (children : List (String × List String)) (root : String) : ℕ :=
  (root :: allKids children).length

theorem nodup_subset_length_le {l s : List String} (hl : l.Nodup) (hs : ∀ x ∈ l, x ∈ s) :
    l.length ≤ s.length := by
  classical
  calc l.length = l.toFinset.card := (List.toFinset_card_of_nodup hl).symm
    _ ≤ s.toFinset.card := Finset.card_le_card (by
        intro x hx
        exact List.mem_toFinset.2 (hs x (List.mem_toFinset.1 hx)))
    _ ≤ s.length := s.toFinset_card_le

theorem walk_length_le {children : List (String × List String)} {root : String}
    (hacyc : AcyclicFrom children root) {p : List String}
    (hw : IsWalk children root p) : p.length ≤ nodeBound children root :=
  nodup_subset_length_le (hacyc p hw) (walk_nodes_mem hw)

/-- Total bucket size: bounds the number of children pushed at any node. -/
def branchBound (children : List (String × List String)) : ℕ :=
  (children.map (fun e => e.2.length)).sum

theorem validKids_length_le (children : List (String × List String)) (a : String) :
    (validKids children a).length ≤ branchBound children := by
  rw [validKids]
  refine le_trans (List.length_filterMap_le _ _) ?_
  rcases mem_of_childrenGet children a with h | ⟨e, he, h⟩
  · rw [h]; exact Nat.zero_le _
  · rw [h, branchBound]
    exact List.single_le_sum (fun x _ => Nat.zero_le x) _ (List.mem_map.2 ⟨e, he, rfl⟩)

/-- Weight of one stack entry: strictly more than the total weight of the
entries that can replace it. -/
def pathWeight (children : List (String × List String)) (root : String)
    (p : List String) : ℕ :=
  (branchBound children + 1) ^ (nodeBound children root + 1 - p.length)

def stackWeight (children : List (String × List String)) (root : String)
    (stack : List (List String)) : ℕ :=
  (stack.map (pathWeight children root)).sum

theorem sum_map_const_eq {α : Type} (l : List α) (c : ℕ) (f : α → ℕ)
    (hf : ∀ x ∈ l, f x = c) : (l.map f).sum = l.length * c := by
  induction l with
  | nil => simp
  | cons a t ih =>
    have ha := hf a (List.mem_cons_self _ _)
    have ht := ih (fun x hx => hf x (List.mem_cons_of_mem _ hx))
    simp only [List.map_cons, List.sum_cons, List.length_cons, ha, ht, Nat.succ_mul]
    omega

theorem dfs_pushes_eq (children : List (String × List String)) (p : List String) :
    (childrenGet children (p.getLastD "")).filterMap (fun c =>
      let cid := pyStrip c
      if cid = "" then Option.none else some (p ++ [cid]))
    = (validKids children (p.getLastD "")).map (fun cid => p ++ [cid]) := by
  rw [validKids, List.map_filterMap]
  congr 1
  funext c
  by_cases hcid : pyStrip c = "" <;> simp [hcid]

theorem dfsLoop_total (children : List (String × List String)) (root : String)
    (hacyc : AcyclicFrom children root) :
    ∀ (fuel : ℕ) (stack : List (List String)) (best : List String),
      (∀ p ∈ stack, IsWalk children root p) →
      stackWeight children root stack < fuel →
      ∃ res, dfsLoop children fuel stack best = some res := by
  intro fuel
  induction fuel with
  | zero => intro stack best _ hW; omega
  | succ fuel ih =>
    intro stack best hstack hW
    cases stack with
    | nil => exact ⟨best, rfl⟩
    | cons p rest =>
      have hpwalk := hstack p (List.mem_cons_self _ _)
      have hsplit : stackWeight children root (p :: rest)
          = pathWeight children root p + stackWeight children root rest := by
        simp [stackWeight]
      have hw1 : 0 < pathWeight children root p := Nat.pos_pow_of_pos _ (by omega)
      rw [dfsLoop]
      by_cases hleaf : childrenGet children (p.getLastD "") = []
      · rw [if_pos hleaf]
        exact ih rest _ (fun x hx => hstack x (List.mem_cons_of_mem _ hx)) (by omega)
      · rw [if_neg hleaf, dfs_pushes_eq]
        set kids := validKids children (p.getLastD "") with hkids
        have hplen : p.length ≤ nodeBound children root := walk_length_le hacyc hpwalk
        have hstack2 : ∀ x ∈ (kids.map (fun cid => p ++ [cid])).reverse ++ rest,
            IsWalk children root x := by
          intro x hx
          rcases List.mem_append.1 hx with hx | hx
          · rcases List.mem_map.1 (List.mem_reverse.1 hx) with ⟨cid, hcid, rfl⟩
            exact hpwalk.extend (hkids ▸ hcid)
          · exact hstack x (List.mem_cons_of_mem _ hx)
        refine ih _ best hstack2 ?_
        -- the pushed entries weigh strictly less than the popped one
        set B := branchBound children with hB
        set N := nodeBound children root with hN
        have hWsplit : stackWeight children root
            ((kids.map (fun cid => p ++ [cid])).reverse ++ rest)
            = ((kids.map (fun cid => p ++ [cid])).reverse.map
                (pathWeight children root)).sum + stackWeight children root rest := by
          simp [stackWeight]
        have hconst : ((kids.map (fun cid => p ++ [cid])).reverse.map
            (pathWeight children root)).sum
            = (kids.map (fun cid => p ++ [cid])).reverse.length
              * (B + 1) ^ (N + 1 - (p.length + 1)) := by
          refine sum_map_const_eq _ _ _ ?_
          intro x hx
          rcases List.mem_map.1 (List.mem_reverse.1 hx) with ⟨cid, _, rfl⟩
          simp [pathWeight, ← hB, ← hN]
        have hcount : (kids.map (fun cid => p ++ [cid])).reverse.length ≤ B := by
          rw [List.length_reverse, List.length_map, hkids, hB]
          exact validKids_length_le children (p.getLastD "")
        have hexp : N + 1 - p.length = (N + 1 - (p.length + 1)) + 1 := by omega
        have hpw : pathWeight children root p
            = (B + 1) ^ (N + 1 - (p.length + 1)) * (B + 1) := by
          rw [pathWeight, ← hB, ← hN, hexp, pow_succ]
        have hple : ((kids.map (fun cid => p ++ [cid])).reverse.map
            (pathWeight children root)).sum + 1 ≤ pathWeight children root p := by
          rw [hconst, hpw]
          have hpow1 : 1 ≤ (B + 1) ^ (N + 1 - (p.length + 1)) :=
            Nat.one_le_pow _ _ (by omega)
          have := Nat.mul_le_mul_right ((B + 1) ^ (N + 1 - (p.length + 1))) hcount
          nlinarith
        omega

/-- The call-site path selection of lines 251–253: `pick_longest_path`
followed by the degenerate fallback to `[root_id]`. -/
def selectedPath (paths : PyValue) (root_id : String)
    (children : List (String × List String)) (fuel : ℕ) : Option (List String) :=
  (pick_longest_path paths root_id children fuel).map
    (fun lp => if lp = [] then [root_id] else lp)

theorem pick_no_candidates {paths : PyValue} {root_id : String}
    {children : List (String × List String)} {fuel : ℕ}
    (h : pathCandidates paths root_id = []) :
    pick_longest_path paths root_id children fuel
      = dfsLoop children fuel [[root_id]] [] := by
  unfold pick_longest_path bestCandidate
  rw [h]
  rfl

theorem leafPath_initial_cover {children : List (String × List String)}
    {root : String} :
    ∀ q, IsLeafPath children root q →
      q.length ≤ ([] : List String).length ∨ ∃ p ∈ [[root]], p <+: q := by
  intro q hq
  right
  rcases List.exists_cons_of_ne_nil hq.1.ne_nil with ⟨a, t, rfl⟩
  have ha : a = root := Option.some.inj hq.1.1
  subst ha
  exact ⟨[a], List.mem_singleton.2 rfl, ⟨t, rfl⟩⟩

theorem walk_nil_children {root : String} {p : List String}
    (h : IsWalk [] root p) : p = [root] := by
  rcases List.exists_cons_of_ne_nil h.ne_nil with ⟨a, t, rfl⟩
  have ha : a = root := Option.some.inj h.1
  subst ha
  cases t with
  | nil => rfl
  | cons c t2 =>
    have hc := (List.chain'_cons.1 h.2).1
    simp [validKids, childrenGet] at hc

theorem acyclicFrom_nil (root : String) : AcyclicFrom [] root := by
  intro p hw
  rw [walk_nil_children hw]
  exact List.nodup_singleton _

/-- C7: when no precomputed candidate survives and the children relation
is acyclic, the selection terminates for sufficient fuel; when some
root-to-leaf path exists the DFS returns one of maximal length, when none
does the selected path degenerates to `[root_id]`, and in particular for
an empty children relation it is exactly `[root_id]`. -/
theorem selectedPath_dfs_spec (paths : PyValue) (root_id : String)
    (children : List (String × List String))
    (hnc : pathCandidates paths root_id = [])
    (hacyc : AcyclicFrom children root_id) :
    ∃ fuel res, selectedPath paths root_id children fuel = some res ∧
      ((∃ q, IsLeafPath children root_id q) →
        IsLeafPath children root_id res ∧
        ∀ q, IsLeafPath children root_id q → q.length ≤ res.length) ∧
      ((¬ ∃ q, IsLeafPath children root_id q) → res = [root_id]) ∧
      (children = [] → res = [root_id]) := by
  have hstack0 : ∀ p ∈ [[root_id]], IsWalk children root_id p := by
    intro p hp
    rw [List.mem_singleton.1 hp]
    exact ⟨rfl, List.chain'_singleton _⟩
  obtain ⟨res0, hres0⟩ := dfsLoop_total children root_id hacyc
    (stackWeight children root_id [[root_id]] + 1) [[root_id]] [] hstack0 (by omega)
  obtain ⟨hres0ok, hres0max⟩ := dfsLoop_spec children root_id _ _ _ _ hres0 hstack0
    (Or.inl rfl) leafPath_initial_cover
  refine ⟨stackWeight children root_id [[root_id]] + 1,
    if res0 = [] then [root_id] else res0, ?_, ?_, ?_, ?_⟩
  · rw [selectedPath, pick_no_candidates hnc, hres0]
    rfl
  · rintro ⟨q, hq⟩
    have hq1 : 1 ≤ q.length := by
      rcases List.exists_cons_of_ne_nil hq.1.ne_nil with ⟨a, t, rfl⟩
      simp
    have hres0ne : res0 ≠ [] := by
      intro he
      have := hres0max q hq
      rw [he] at this
      simp only [List.length_nil] at this
      omega
    rw [if_neg hres0ne]
    rcases hres0ok with he | hleaf
    · exact absurd he hres0ne
    · exact ⟨hleaf, hres0max⟩
  · intro hno
    rcases hres0ok with he | hleaf
    · rw [if_pos he]
    · exact absurd ⟨res0, hleaf⟩ hno
  · intro hcnil
    subst hcnil
    rcases hres0ok with he | hleaf
    · rw [if_pos he]
    · have := walk_nil_children hleaf.1
      rw [this]
      simp [this]

/-- Witness for C7: the empty children relation with no precomputed
paths — the selected path is exactly `["r"]`. -/
theorem selectedPath_dfs_spec_witness :
    ∃ fuel res, selectedPath .none "r" [] fuel = some res ∧
      ((∃ q, IsLeafPath [] "r" q) →
        IsLeafPath [] "r" res ∧
        ∀ q, IsLeafPath [] "r" q → q.length ≤ res.length) ∧
      ((¬ ∃ q, IsLeafPath [] "r" q) → res = ["r"]) ∧
      (([] : List (String × List String)) = [] → res = ["r"]) :=
  selectedPath_dfs_spec .none "r" [] rfl (acyclicFrom_nil "r")

/-! ## Tweet Attribute Fuser & Thread Aggregator (source lines 213–324) -/

/-- One fused per-tweet output entry (lines 295–307). -/
structure TweetEntry where
  id : String
  username : String
  created_at : Option String
  full_text : String
  favorite_count : ℤ
  cluster_id : String
  cluster_prob : PyFloat
  is_reply : Bool
  is_retweet : Bool
deriving DecidableEq

/-- One output thread (lines 312–324). -/
structure UserThread where
  id : String
  cluster_id : String
  is_incomplete : Bool
  root_is_reply : Bool
  contains_retweet : Bool
  total_favorites : ℤ
  root_created_at : Option String
  max_cluster_prob : PyFloat
  tweets : List TweetEntry
deriving DecidableEq

/-- Python `d.get(k)` for a string key `k`: Python string
equality never matches a key of another type. -/
def dictGetStr (d : List (PyValue × PyValue)) (k : String) : PyValue :=
  match d.find? (fun p => match p.1 with | .str s => decide (s = k) | _ => false) with
  | some p => p.2
  | _ => .none

def isDictValue : PyValue → Bool
  | .dict _ => true
  | _ => false

/-- Python truthiness of a float: only (positive or negative) zero is
falsy; NaN and the infinities are truthy. -/
def pyFloatTruthy : PyFloat → Bool
  | .finite q => decide (q ≠ 0)
  | _ => true

/-- Python `<` on floats: any comparison with NaN is false. -/
def pyFloatLt : PyFloat → PyFloat → Bool
  | .nan, _ => false
  | _, .nan => false
  | .ninf, .ninf => false
  | .ninf, _ => true
  | _, .ninf => false
  | .inf, _ => false
  | _, .inf => true
  | .finite a, .finite b => decide (a < b)

/-- Python `x or y` for an optional string (`None` and `""` are falsy). -/
def orElseStr (x y : Option String) : Option String :=
  match x with
  | some s => if s = "" then y else some s
  | _ => y

/-- Source `tweet_lookup.get(tweet_id, {})` as an option (line 264). -/
def storeGet (store : List (String × TweetRec)) (tweet_id : String) : Option TweetRec :=
  (store.find? (fun p => decide (p.1 = tweet_id))).map (fun p => p.2)

/-- Source `tweets.get(tweet_id, {}) if isinstance(..., dict) else {}` (line 265). -/
def treeInfoOf (tweets : List (PyValue × PyValue)) (tweet_id : String) :
    List (PyValue × PyValue) :=
  match dictGetStr tweets tweet_id with
  | .dict d => d
  | _ => []

/-- The per-tweet attribute fusion of lines 263–280: canonical store value
when present (for the numeric fields) / non-empty (for the string fields),
otherwise the coerced tree-embedded value.  The unguarded coercions of the
fallbacks can raise, in store-miss order `favorite_count` first. -/
def fuseEntry (store : List (String × TweetRec)) (tweets : List (PyValue × PyValue))
    (tweet_id : String) : Except String TweetEntry := do
  let tree_info := treeInfoOf tweets tweet_id
  let username :=
    match storeGet store tweet_id with
    | some r =>
      if r.username = "" then to_string (dictGetStr tree_info "username") else r.username
    | _ => to_string (dictGetStr tree_info "username")
  let created_at :=
    orElseStr ((storeGet store tweet_id).bind (fun r => r.created_at))
      (normalize_created_at (dictGetStr tree_info "created_at"))
  let full_text :=
    match storeGet store tweet_id with
    | some r =>
      if r.full_text = "" then to_string (dictGetStr tree_info "full_text") else r.full_text
    | _ => to_string (dictGetStr tree_info "full_text")
  let favorite_count ←
    match storeGet store tweet_id with
    | some r => pure r.favorite_count
    | _ => to_int (dictGetStr tree_info "favorite_count")
  let reply_to :=
    match storeGet store tweet_id with
    | some r =>
      if r.reply_to_tweet_id = "" then to_string (dictGetStr tree_info "reply_to_tweet_id")
      else r.reply_to_tweet_id
    | _ => to_string (dictGetStr tree_info "reply_to_tweet_id")
  let cluster_id :=
    match storeGet store tweet_id with
    | some r =>
      if r.cluster = "" then to_string (dictGetStr tree_info "cluster") else r.cluster
    | _ => to_string (dictGetStr tree_info "cluster")
  let cluster_prob ←
    match storeGet store tweet_id with
    | some r => pure r.cluster_prob
    | _ => to_float (dictGetStr tree_info "cluster_prob")
  pure ⟨tweet_id, username, created_at, full_text, favorite_count, cluster_id,
    cluster_prob, decide (reply_to ≠ ""), detect_retweet full_text⟩

/-- The running aggregates of lines 255–261 plus the entry list. -/
structure ThreadAgg where
  entries : List TweetEntry
  total_favorites : ℤ
  max_cluster_prob : PyFloat
  cluster_candidate : String
  root_is_reply : Bool
  contains_retweet : Bool
  root_created_at : Option String
deriving DecidableEq

/-- The per-path aggregation loop of lines 263–307. -/
def threadLoop (store : List (String × TweetRec)) (tweets : List (PyValue × PyValue)) :
    List String → ℕ → ThreadAgg → Except String ThreadAgg
  | [], _, agg => .ok agg
  | tweet_id :: rest, index, agg => do
    let e ← fuseEntry store tweets tweet_id
    let root_is_reply := if index = 0 then e.is_reply else agg.root_is_reply
    let root_created_at := if index = 0 then e.created_at else agg.root_created_at
    let cluster_candidate :=
      if e.cluster_id ≠ "" ∧ agg.cluster_candidate = "" then e.cluster_id
      else agg.cluster_candidate
    let total := agg.total_favorites + e.favorite_count
    let maxp :=
      if pyFloatTruthy e.cluster_prob ∧ pyFloatLt agg.max_cluster_prob e.cluster_prob
      then e.cluster_prob else agg.max_cluster_prob
    let contains_rt := agg.contains_retweet || e.is_retweet
    threadLoop store tweets rest (index + 1)
      ⟨agg.entries ++ [e], total, maxp, cluster_candidate, root_is_reply,
        contains_rt, root_created_at⟩

/-- The `children_map` construction of lines 221–235 (dict assignment
overwrites in place; empty parent ids and empty buckets are skipped). -/
def buildChildrenMap (raw : PyValue) : List (String × List String) :=
  match raw with
  | .dict entries =>
    entries.foldl (fun acc kv =>
      let parent_id := to_string kv.1
      if parent_id = "" then acc
      else
        let bucket := match kv.2 with
          | .list xs => normCore xs
          | _ => []
        if bucket = [] then acc else insertKV acc parent_id bucket) []
  | _ => []

/-- The `normalized_paths` construction of lines 237–249. -/
def buildNormPaths (raw : PyValue) : List (String × List String) :=
  match raw with
  | .dict entries =>
    entries.foldl (fun acc kv =>
      match kv.2 with
      | .list xs =>
        match normCore xs with
        | [] => acc
        | h :: t => insertKV acc (to_string kv.1) (h :: t)
      | _ => acc) []
  | _ => []

/-- The empty aggregate of lines 255–261. -/
def initAgg : ThreadAgg := ⟨[], 0, .finite 0, "", false, false, Option.none⟩

/-- One iteration of the main per-tree loop (lines 213–324): `none` for a
skipped tree (non-mapping payload, or — defensively — an empty entry
list). -/
def buildThread (store : List (String × TweetRec)) (root_id : String)
    (tree : PyValue) (is_incomplete : Bool) (fuel : ℕ) :
    Except String (Option UserThread) :=
  match tree with
  | .dict td =>
    let tweets := match dictGetStr td "tweets" with
      | .dict d => d
      | _ => []
    let children_map := buildChildrenMap (dictGetStr td "children")
    let normalized_paths := buildNormPaths (dictGetStr td "paths")
    match selectedPath (.dict (normalized_paths.map (fun kv =>
        (PyValue.str kv.1, PyValue.list (kv.2.map PyValue.str)))))
        root_id children_map fuel with
    | Option.none => .error "NonTermination"
    | some longest_path =>
      match threadLoop store tweets longest_path 0 initAgg with
      | .error err => .error err
      | .ok agg =>
        if agg.entries = [] then .ok Option.none
        else .ok (some ⟨root_id, agg.cluster_candidate, is_incomplete,
          agg.root_is_reply, agg.contains_retweet, agg.total_favorites,
          agg.root_created_at, agg.max_cluster_prob, agg.entries⟩)
  | _ => .ok Option.none

/-- The main loop over the merged forest, in iteration order. -/
def buildThreadsGo (store : List (String × TweetRec)) (fuel : ℕ) :
    List (String × PyValue × Bool) → Except String (List UserThread)
  | [] => .ok []
  | (root_id, tree, inc) :: rest =>
    match buildThread store root_id tree inc fuel with
    | .error err => .error err
    | .ok Option.none => buildThreadsGo store fuel rest
    | .ok (some t) =>
      match buildThreadsGo store fuel rest with
      | .error err => .error err
      | .ok ts => .ok (t :: ts)

def buildThreads (store : List (String × TweetRec))
    (trees_data incomplete_data : List (PyValue × PyValue)) (fuel : ℕ) :
    Except String (List UserThread) :=
  buildThreadsGo store fuel (combined_roots trees_data incomplete_data)

/-! ## Output Sorter (source lines 330–336) -/

/-- The sort key of lines 331–335: `(root_created_at is not None,
root_created_at or "")`. -/
def threadSortKey (t : UserThread) : Bool × String :=
  (t.root_created_at.isSome, t.root_created_at.getD "")

/-- Whether `a` may precede `b` under `reverse=True` sorting: `a`'s key is at
least `b`'s in Python tuple order. -/
def keyGeb (a b : UserThread) : Bool :=
  (!(threadSortKey b).1 && (threadSortKey a).1) ||
    ((threadSortKey b).1 == (threadSortKey a).1 &&
      decide ((threadSortKey b).2 ≤ (threadSortKey a).2))

def threadGe (a b : UserThread) : Prop := keyGeb a b = true

instance threadGe.decRel : DecidableRel threadGe := fun a b =>
  decEq (keyGeb a b) true

/-- Source `threads.sort(key=..., reverse=True)`: Python's sort is stable, and a
stable sort under a total preorder has a unique result, here realised by
insertion sort. -/
def sortThreads (l : List UserThread) : List UserThread :=
  l.insertionSort threadGe

/-- The whole transform from loaded inputs to the emitted thread list. -/
def get_user_threads (store : List (String × TweetRec))
    (trees_data incomplete_data : List (PyValue × PyValue)) (fuel : ℕ) :
    Except String (List UserThread) :=
  (buildThreads store trees_data incomplete_data fuel).map sortThreads

theorem fuseEntry_hit {store : List (String × TweetRec)}
    {tweets : List (PyValue × PyValue)} {tweet_id : String} {r : TweetRec}
    {e : TweetEntry} (hs : storeGet store tweet_id = some r)
    (h : fuseEntry store tweets tweet_id = .ok e) :
    e = ⟨tweet_id,
      (if r.username = "" then to_string (dictGetStr (treeInfoOf tweets tweet_id) "username")
        else r.username),
      orElseStr r.created_at
        (normalize_created_at (dictGetStr (treeInfoOf tweets tweet_id) "created_at")),
      (if r.full_text = "" then to_string (dictGetStr (treeInfoOf tweets tweet_id) "full_text")
        else r.full_text),
      r.favorite_count,
      (if r.cluster = "" then to_string (dictGetStr (treeInfoOf tweets tweet_id) "cluster")
        else r.cluster),
      r.cluster_prob,
      decide ((if r.reply_to_tweet_id = ""
          then to_string (dictGetStr (treeInfoOf tweets tweet_id) "reply_to_tweet_id")
          else r.reply_to_tweet_id) ≠ ""),
      detect_retweet (if r.full_text = ""
        then to_string (dictGetStr (treeInfoOf tweets tweet_id) "full_text")
        else r.full_text)⟩ := by
  unfold fuseEntry at h
  rw [hs] at h
  dsimp only at h
  simp only [Option.bind_some, Bind.bind, Except.bind, pure, Except.pure,
    Except.ok.injEq] at h
  exact h.symm

theorem fuseEntry_miss {store : List (String × TweetRec)}
    {tweets : List (PyValue × PyValue)} {tweet_id : String} {e : TweetEntry}
    (hs : storeGet store tweet_id = Option.none)
    (h : fuseEntry store tweets tweet_id = .ok e) :
    ∃ fav prob,
      to_int (dictGetStr (treeInfoOf tweets tweet_id) "favorite_count") = .ok fav ∧
      to_float (dictGetStr (treeInfoOf tweets tweet_id) "cluster_prob") = .ok prob ∧
      e = ⟨tweet_id,
        to_string (dictGetStr (treeInfoOf tweets tweet_id) "username"),
        normalize_created_at (dictGetStr (treeInfoOf tweets tweet_id) "created_at"),
        to_string (dictGetStr (treeInfoOf tweets tweet_id) "full_text"),
        fav,
        to_string (dictGetStr (treeInfoOf tweets tweet_id) "cluster"),
        prob,
        decide (to_string (dictGetStr (treeInfoOf tweets tweet_id) "reply_to_tweet_id") ≠ ""),
        detect_retweet (to_string (dictGetStr (treeInfoOf tweets tweet_id) "full_text"))⟩ := by
  unfold fuseEntry at h
  rw [hs] at h
  dsimp only at h
  cases hf : to_int (dictGetStr (treeInfoOf tweets tweet_id) "favorite_count") with
  | error err =>
    rw [hf] at h
    simp [Bind.bind, Except.bind] at h
  | ok fav =>
    rw [hf] at h
    cases hp : to_float (dictGetStr (treeInfoOf tweets tweet_id) "cluster_prob") with
    | error err =>
      rw [hp] at h
      simp [Bind.bind, Except.bind] at h
    | ok prob =>
      rw [hp] at h
      simp only [Bind.bind, Except.bind, pure, Except.pure, Except.ok.injEq] at h
      exact ⟨fav, prob, rfl, rfl, by rw [← h]; rfl⟩

/-- C8: for every tweet id on a path, each fused field takes the canonical
store value when the store has the id and (for the string fields) that
value is non-empty / (for the numeric fields) unconditionally, and
otherwise the coerced tree-embedded value; the zero values `"" / 0 / 0.0`
are exactly the coercions of a missing (`None`) tree value, so a field
missing on both sides gets its zero value.  In particular a non-empty
store username always beats the tree username. -/
theorem fuseEntry_precedence (store : List (String × TweetRec))
    (tweets : List (PyValue × PyValue)) (tweet_id : String) (e : TweetEntry)
    (h : fuseEntry store tweets tweet_id = .ok e) :
    (∀ r, storeGet store tweet_id = some r → r.username ≠ "" → e.username = r.username) ∧
    (∀ r, storeGet store tweet_id = some r → r.username = "" →
      e.username = to_string (dictGetStr (treeInfoOf tweets tweet_id) "username")) ∧
    (storeGet store tweet_id = Option.none →
      e.username = to_string (dictGetStr (treeInfoOf tweets tweet_id) "username")) ∧
    (∀ r, storeGet store tweet_id = some r → r.full_text ≠ "" → e.full_text = r.full_text) ∧
    (∀ r, storeGet store tweet_id = some r → r.full_text = "" →
      e.full_text = to_string (dictGetStr (treeInfoOf tweets tweet_id) "full_text")) ∧
    (storeGet store tweet_id = Option.none →
      e.full_text = to_string (dictGetStr (treeInfoOf tweets tweet_id) "full_text")) ∧
    (∀ r, storeGet store tweet_id = some r → r.cluster ≠ "" → e.cluster_id = r.cluster) ∧
    (∀ r, storeGet store tweet_id = some r → r.cluster = "" →
      e.cluster_id = to_string (dictGetStr (treeInfoOf tweets tweet_id) "cluster")) ∧
    (storeGet store tweet_id = Option.none →
      e.cluster_id = to_string (dictGetStr (treeInfoOf tweets tweet_id) "cluster")) ∧
    (∀ r, storeGet store tweet_id = some r →
      e.created_at = orElseStr r.created_at
        (normalize_created_at (dictGetStr (treeInfoOf tweets tweet_id) "created_at"))) ∧
    (storeGet store tweet_id = Option.none →
      e.created_at = normalize_created_at (dictGetStr (treeInfoOf tweets tweet_id) "created_at")) ∧
    (∀ r, storeGet store tweet_id = some r → e.favorite_count = r.favorite_count) ∧
    (storeGet store tweet_id = Option.none →
      to_int (dictGetStr (treeInfoOf tweets tweet_id) "favorite_count") = .ok e.favorite_count) ∧
    (∀ r, storeGet store tweet_id = some r → e.cluster_prob = r.cluster_prob) ∧
    (storeGet store tweet_id = Option.none →
      to_float (dictGetStr (treeInfoOf tweets tweet_id) "cluster_prob") = .ok e.cluster_prob) ∧
    (to_string PyValue.none = "" ∧ to_int PyValue.none = .ok 0 ∧
      to_float PyValue.none = .ok (.finite 0)) := by
  cases hs : storeGet store tweet_id with
  | none =>
    obtain ⟨fav, prob, hf, hp, rfl⟩ := fuseEntry_miss hs h
    refine ⟨?_, ?_, ?_, ?_, ?_, ?_, ?_, ?_, ?_, ?_, ?_, ?_, ?_, ?_, ?_, rfl, rfl, rfl⟩ <;>
      first
      | (intro r hr; cases hr)
      | (intro r hr _; cases hr)
      | (intro _; rfl)
      | (intro _; exact hf)
      | (intro _; exact hp)
  | some r =>
    have he := fuseEntry_hit hs h
    subst he
    refine ⟨?_, ?_, ?_, ?_, ?_, ?_, ?_, ?_, ?_, ?_, ?_, ?_, ?_, ?_, ?_, rfl, rfl, rfl⟩ <;>
      first
      | (intro r2 hr hne
         cases Option.some.inj hr
         show (if _ = "" then _ else _) = _
         rw [if_neg hne])
      | (intro r2 hr heq
         cases Option.some.inj hr
         show (if _ = "" then _ else _) = _
         rw [if_pos heq])
      | (intro r2 hr
         cases Option.some.inj hr
         rfl)
      | (intro h0; cases h0)

/-! ## C10: every emitted thread starts at its root -/

theorem fuseEntry_id {store : List (String × TweetRec)}
    {tweets : List (PyValue × PyValue)} {tid : String} {e : TweetEntry}
    (h : fuseEntry store tweets tid = .ok e) : e.id = tid := by
  cases hs : storeGet store tid with
  | none =>
    obtain ⟨fav, prob, _, _, rfl⟩ := fuseEntry_miss hs h
    rfl
  | some r =>
    rw [fuseEntry_hit hs h]

theorem threadLoop_entries_ids {store : List (String × TweetRec)}
    {tweets : List (PyValue × PyValue)} :
    ∀ (path : List String) (index : ℕ) (agg agg2 : ThreadAgg),
      threadLoop store tweets path index agg = .ok agg2 →
      agg2.entries.map (fun e => e.id) = agg.entries.map (fun e => e.id) ++ path := by
  intro path
  induction path with
  | nil =>
    intro i agg agg2 h
    cases h
    simp
  | cons tid rest ih =>
    intro i agg agg2 h
    rw [threadLoop] at h
    cases hf : fuseEntry store tweets tid with
    | error err =>
      rw [hf] at h
      simp [Bind.bind, Except.bind] at h
    | ok e =>
      rw [hf] at h
      dsimp only at h
      have hrec := ih _ _ _ h
      rw [hrec]
      have hid : e.id = tid := fuseEntry_id hf
      simp [hid]

theorem normalizePath_head {root_id : String} {path : PyValue} {c : List String}
    (h : normalizePath root_id path = some c) : c.head? = some root_id := by
  cases path <;> unfold normalizePath at h <;> dsimp only at h <;>
    try exact Option.noConfusion h
  case list entries =>
    rcases hF : normCore entries with _ | ⟨a, t⟩ <;> rw [hF] at h
    · exact Option.noConfusion h
    · cases Option.some.inj h
      by_cases ha : a = root_id <;> simp [ha]

theorem pathCandidates_head {paths : PyValue} {root_id : String} {c : List String}
    (h : c ∈ pathCandidates paths root_id) : c.head? = some root_id := by
  unfold pathCandidates at h
  cases paths <;> try cases h
  case dict entries =>
    rcases List.mem_filterMap.1 h with ⟨kv, _, hn⟩
    exact normalizePath_head hn

theorem bestCandidate_mem {cands : List (List String)} (h : bestCandidate cands ≠ []) :
    bestCandidate cands ∈ cands := by
  rcases bestCandidate_foldl_spec cands [] with ⟨heq, _⟩ | ⟨i, hi, heq, _, _, _⟩
  · exact absurd heq h
  · show cands.foldl _ [] ∈ cands
    rw [heq]
    exact List.getElem_mem _

theorem selectedPath_head {paths : PyValue} {root_id : String}
    {children : List (String × List String)} {fuel : ℕ} {res : List String}
    (h : selectedPath paths root_id children fuel = some res) :
    res ≠ [] ∧ res.head? = some root_id := by
  unfold selectedPath at h
  cases hp : pick_longest_path paths root_id children fuel with
  | none => rw [hp] at h; cases h
  | some lp =>
    rw [hp] at h
    have hres : (if lp = [] then [root_id] else lp) = res := Option.some.inj h
    by_cases hlp : lp = []
    · rw [if_pos hlp] at hres
      rw [← hres]
      exact ⟨by simp, rfl⟩
    · rw [if_neg hlp] at hres
      subst hres
      refine ⟨hlp, ?_⟩
      unfold pick_longest_path at hp
      by_cases hb : bestCandidate (pathCandidates paths root_id) = []
      · rw [if_pos hb] at hp
        have hstack0 : ∀ p ∈ [[root_id]], IsWalk children root_id p := by
          intro p hpm
          rw [List.mem_singleton.1 hpm]
          exact ⟨rfl, List.chain'_singleton _⟩
        obtain ⟨hok, _⟩ := dfsLoop_spec children root_id _ _ _ _ hp hstack0
          (Or.inl rfl) leafPath_initial_cover
        rcases hok with he | hleaf
        · exact absurd he hlp
        · exact hleaf.1.1
      · rw [if_neg hb] at hp
        cases Option.some.inj hp
        exact pathCandidates_head (bestCandidate_mem hb)

theorem buildThread_thread_shape {store : List (String × TweetRec)}
    {root_id : String} {tree : PyValue} {inc : Bool} {fuel : ℕ} {t : UserThread}
    (h : buildThread store root_id tree inc fuel = .ok (some t)) :
    t.id = root_id ∧ t.tweets ≠ [] ∧
      t.tweets.head?.map (fun e => e.id) = some t.id := by
  cases tree <;> unfold buildThread at h <;> dsimp only at h <;> try cases h
  case dict td =>
    cases hsel : selectedPath (.dict ((buildNormPaths (dictGetStr td "paths")).map
        (fun kv => (PyValue.str kv.1, PyValue.list (kv.2.map PyValue.str)))))
        root_id (buildChildrenMap (dictGetStr td "children")) fuel with
    | none => rw [hsel] at h; cases h
    | some lp =>
      rw [hsel] at h
      dsimp only at h
      obtain ⟨hlpne, hlphead⟩ := selectedPath_head hsel
      cases hloop : threadLoop store (match dictGetStr td "tweets" with
          | .dict d => d
          | _ => []) lp 0 initAgg with
      | error err => rw [hloop] at h; cases h
      | ok agg =>
        rw [hloop] at h
        dsimp only at h
        have hids := threadLoop_entries_ids lp 0 initAgg agg hloop
        have hids2 : agg.entries.map (fun e => e.id) = lp := by
          rw [hids]; rfl
        by_cases hae : agg.entries = []
        · rw [if_pos hae] at h; cases h
        · rw [if_neg hae] at h
          cases Option.some.inj (Except.ok.inj h)
          refine ⟨rfl, hae, ?_⟩
          show (agg.entries.head?.map (fun e => e.id)) = some root_id
          rw [← List.head?_map, hids2]
          exact hlphead

theorem buildThreadsGo_mem {store : List (String × TweetRec)} {fuel : ℕ} :
    ∀ {items : List (String × PyValue × Bool)} {out : List UserThread},
      buildThreadsGo store fuel items = .ok out → ∀ t ∈ out,
        ∃ root_id tree inc, (root_id, tree, inc) ∈ items ∧
          buildThread store root_id tree inc fuel = .ok (some t) := by
  intro items
  induction items with
  | nil =>
    intro out h t ht
    cases h
    cases ht
  | cons item rest ih =>
    rcases item with ⟨root_id, tree, inc⟩
    intro out h t ht
    rw [buildThreadsGo] at h
    cases hb : buildThread store root_id tree inc fuel with
    | error err => rw [hb] at h; cases h
    | ok t? =>
      rw [hb] at h
      cases t? with
      | none =>
        obtain ⟨r2, tr2, inc2, hmem, hbt⟩ := ih h t ht
        exact ⟨r2, tr2, inc2, List.mem_cons_of_mem _ hmem, hbt⟩
      | some t2 =>
        cases hrest : buildThreadsGo store fuel rest with
        | error err => rw [hrest] at h; cases h
        | ok ts =>
          rw [hrest] at h
          cases h
          rcases List.mem_cons.1 ht with rfl | ht2
          · exact ⟨root_id, tree, inc, List.mem_cons_self _ _, hb⟩
          · obtain ⟨r2, tr2, inc2, hmem, hbt⟩ := ih hrest t ht2
            exact ⟨r2, tr2, inc2, List.mem_cons_of_mem _ hmem, hbt⟩

/-- C10: every thread the transform emits has a non-empty `tweets` list
whose first entry's id is the thread's root id — the selected path always
begins with the root (prepended for precomputed candidates, seeded for the
DFS, and the degenerate fallback is `[root_id]`). -/
theorem emitted_threads_root_first (store : List (String × TweetRec))
    (trees_data incomplete_data : List (PyValue × PyValue)) (fuel : ℕ)
    (out : List UserThread)
    (h : get_user_threads store trees_data incomplete_data fuel = .ok out) :
    ∀ t ∈ out, t.tweets ≠ [] ∧ t.tweets.head?.map (fun e => e.id) = some t.id := by
  unfold get_user_threads at h
  cases hb : buildThreads store trees_data incomplete_data fuel with
  | error err => rw [hb] at h; cases h
  | ok out0 =>
    rw [hb] at h
    cases Except.ok.inj h
    intro t ht
    have ht0 : t ∈ out0 := by
      have hperm := List.perm_insertionSort threadGe out0
      exact hperm.mem_iff.1 ht
    obtain ⟨root_id, tree, inc, _, hbt⟩ := buildThreadsGo_mem hb t ht0
    obtain ⟨hid, hne, hhead⟩ := buildThread_thread_shape hbt
    rw [hid] at hhead ⊢
    exact ⟨hne, hhead⟩

/-- The single thread emitted for the C10 witness's inputs. -/
def c10Thread : UserThread :=
  ⟨"r", "", false, false, false, 0, Option.none, .finite 0,
    [⟨"r", "", Option.none, "", 0, "", .finite 0, false, false⟩]⟩

/-- Witness for C10 on a one-tree forest with an empty tree payload. -/
theorem emitted_threads_root_first_witness :
    c10Thread.tweets ≠ [] ∧ c10Thread.tweets.head?.map (fun e => e.id) = some c10Thread.id :=
  emitted_threads_root_first [] [(.str "r", .dict [])] [] 1 [c10Thread] (by decide)
    c10Thread (by decide)

/-! ## C1: non-mapping payloads are dropped; malformed containers degrade -/

/-- C1 counterexample: a merged forest whose only root carries a
non-mapping tree payload produces no thread at all — the root is dropped,
not degraded to a thread with path `["r"]` as the claim states. -/
theorem malformed_payload_dropped_counterexample :
    buildThreads [] [(.str "r", .str "bad")] [] 1 = .ok [] ∧
    (∀ out : List UserThread, buildThreads [] [(.str "r", .str "bad")] [] 1 = .ok out →
      ¬ ∃ t ∈ out, t.id = "r") := by
  refine ⟨by decide, ?_⟩
  intro out hout
  have : out = [] := by
    have h0 : buildThreads [] [(.str "r", .str "bad")] [] 1
        = .ok ([] : List UserThread) := by decide
    rw [h0] at hout
    exact (Except.ok.inj hout).symm
  subst this
  rintro ⟨t, ht, _⟩
  cases ht

theorem fuseEntry_ok_of_tree_nil (store : List (String × TweetRec)) (tid : String) :
    ∃ e, fuseEntry store [] tid = .ok e := by
  cases hfe : fuseEntry store [] tid with
  | ok e => exact ⟨e, rfl⟩
  | error err =>
    exfalso
    cases hs : storeGet store tid with
    | some r =>
      unfold fuseEntry at hfe
      rw [hs] at hfe
      simp [Bind.bind, Except.bind, pure, Except.pure] at hfe
    | none =>
      unfold fuseEntry at hfe
      rw [hs] at hfe
      simp [treeInfoOf, dictGetStr, to_int, to_float, Bind.bind, Except.bind,
        pure, Except.pure] at hfe

/-- C1 (amended): a root whose tree payload is not a mapping is *dropped*
(`buildThread` yields no thread for it), while a root whose payload is a
mapping but whose `tweets` / `children` / `paths` containers are all
malformed has them degraded to empty containers and still yields a thread
with path `[root_id]`; neither case raises. -/
theorem malformed_containers_degrade (store : List (String × TweetRec))
    (root_id : String) (td : List (PyValue × PyValue)) (inc : Bool) (fuel : ℕ)
    (hfuel : 1 ≤ fuel)
    (htw : isDictValue (dictGetStr td "tweets") = false)
    (hch : isDictValue (dictGetStr td "children") = false)
    (hpa : isDictValue (dictGetStr td "paths") = false) :
    (∀ v : PyValue, isDictValue v = false →
      buildThread store root_id v inc fuel = .ok Option.none) ∧
    (∃ t : UserThread, buildThread store root_id (.dict td) inc fuel = .ok (some t) ∧
      t.id = root_id ∧ t.tweets.map (fun e => e.id) = [root_id]) := by
  constructor
  · intro v hv
    cases v <;> first | rfl | cases hv
  · have htweets : (match dictGetStr td "tweets" with
        | PyValue.dict d => d
        | _ => []) = [] := by
      cases hv : dictGetStr td "tweets" <;> first | rfl | (rw [hv] at htw; cases htw)
    have hchildren : buildChildrenMap (dictGetStr td "children") = [] := by
      cases hv : dictGetStr td "children" <;>
        first | rfl | (rw [hv] at hch; cases hch)
    have hpaths : buildNormPaths (dictGetStr td "paths") = [] := by
      cases hv : dictGetStr td "paths" <;> first | rfl | (rw [hv] at hpa; cases hpa)
    obtain ⟨f2, hf2⟩ : ∃ f2, fuel = f2 + 1 := ⟨fuel - 1, by omega⟩
    have hsel : selectedPath (.dict ((buildNormPaths (dictGetStr td "paths")).map
        (fun kv => (PyValue.str kv.1, PyValue.list (kv.2.map PyValue.str)))))
        root_id (buildChildrenMap (dictGetStr td "children")) fuel
        = some [root_id] := by
      rw [hpaths, hchildren, hf2]
      unfold selectedPath pick_longest_path
      simp [pathCandidates, bestCandidate, dfsLoop, childrenGet]
    obtain ⟨e, he⟩ := fuseEntry_ok_of_tree_nil store root_id
    have hid : e.id = root_id := fuseEntry_id he
    have hloop : threadLoop store [] [root_id] 0 initAgg
        = .ok ⟨[e], 0 + e.favorite_count,
            (if pyFloatTruthy e.cluster_prob ∧ pyFloatLt (PyFloat.finite 0) e.cluster_prob
              then e.cluster_prob else PyFloat.finite 0),
            (if e.cluster_id ≠ "" ∧ ("" : String) = "" then e.cluster_id else ""),
            e.is_reply, false || e.is_retweet, e.created_at⟩ := by
      rw [threadLoop, he]
      dsimp only
      rfl
    have hbuild : buildThread store root_id (.dict td) inc fuel
        = .ok (some ⟨root_id,
            (if e.cluster_id ≠ "" ∧ ("" : String) = "" then e.cluster_id else ""),
            inc, e.is_reply, false || e.is_retweet, 0 + e.favorite_count,
            e.created_at,
            (if pyFloatTruthy e.cluster_prob ∧ pyFloatLt (PyFloat.finite 0) e.cluster_prob
              then e.cluster_prob else PyFloat.finite 0),
            [e]⟩) := by
      unfold buildThread
      dsimp only
      rw [hsel]
      dsimp only
      rw [htweets, hloop]
      dsimp only
      rw [if_neg (by simp)]
    exact ⟨_, hbuild, rfl, by simp [hid]⟩

/-- Witness for C1's amended theorem: an empty payload dict — all three
containers are missing, hence malformed. -/
theorem malformed_containers_degrade_witness :
    (∀ v : PyValue, isDictValue v = false →
      buildThread [] "r" v false 1 = .ok Option.none) ∧
    (∃ t : UserThread, buildThread [] "r" (.dict []) false 1 = .ok (some t) ∧
      t.id = "r" ∧ t.tweets.map (fun e => e.id) = ["r"]) :=
  malformed_containers_degrade [] "r" [] false 1 (by decide) (by decide) (by decide)
    (by decide)

/-! ## C9: ordering of the emitted thread list -/

theorem threadGe_iff (a b : UserThread) :
    threadGe a b ↔ (((threadSortKey b).1 = false ∧ (threadSortKey a).1 = true) ∨
      ((threadSortKey b).1 = (threadSortKey a).1 ∧
        (threadSortKey b).2 ≤ (threadSortKey a).2)) := by
  unfold threadGe keyGeb
  cases ha : (threadSortKey a).1 <;> cases hb : (threadSortKey b).1 <;> simp [ha, hb]

instance threadGe.total : IsTotal UserThread threadGe := ⟨fun a b => by
  rw [threadGe_iff, threadGe_iff]
  cases ha : (threadSortKey a).1 <;> cases hb : (threadSortKey b).1 <;>
    simp [ha, hb] <;> exact le_total _ _⟩

instance threadGe.trans : IsTrans UserThread threadGe := ⟨fun a b c hab hbc => by
  rw [threadGe_iff] at hab hbc ⊢
  rcases hab with ⟨hb1, ha1⟩ | ⟨hba, hsab⟩ <;> rcases hbc with ⟨hc1, hb2⟩ | ⟨hcb, hsbc⟩
  · rw [hb1] at hb2; cases hb2
  · exact Or.inl ⟨hcb.trans hb1, ha1⟩
  · exact Or.inl ⟨hc1, by rw [← hba]; exact hb2⟩
  · exact Or.inr ⟨hcb.trans hba, le_trans hsbc hsab⟩⟩

theorem threadGe_undated_left {a b : UserThread}
    (ha : a.root_created_at = Option.none) :
    threadGe a b ↔ b.root_created_at = Option.none := by
  rw [threadGe_iff]
  cases hb : b.root_created_at with
  | none => simp [threadSortKey, ha, hb]
  | some s => simp [threadSortKey, ha, hb]

theorem filter_orderedInsert_undated (a : UserThread)
    (ha : a.root_created_at = Option.none) :
    ∀ s : List UserThread,
      (s.orderedInsert threadGe a).filter (fun t => t.root_created_at.isNone)
        = a :: s.filter (fun t => t.root_created_at.isNone) := by
  intro s
  induction s with
  | nil => simp [List.orderedInsert, List.filter, ha]
  | cons b t ih =>
    rw [List.orderedInsert]
    by_cases hab : threadGe a b
    · rw [if_pos hab]
      have hb : b.root_created_at = Option.none := (threadGe_undated_left ha).1 hab
      simp [List.filter_cons, ha, hb]
    · rw [if_neg hab]
      have hb : ¬ b.root_created_at = Option.none :=
        fun h => hab ((threadGe_undated_left ha).2 h)
      simp [List.filter_cons, Option.isNone_iff_eq_none, hb, ih]

theorem filter_orderedInsert_dated (a : UserThread)
    (ha : ¬ a.root_created_at = Option.none) :
    ∀ s : List UserThread,
      (s.orderedInsert threadGe a).filter (fun t => t.root_created_at.isNone)
        = s.filter (fun t => t.root_created_at.isNone) := by
  intro s
  induction s with
  | nil => simp [List.orderedInsert, Option.isNone_iff_eq_none, ha]
  | cons b t ih =>
    rw [List.orderedInsert]
    by_cases hab : threadGe a b
    · rw [if_pos hab]
      simp [List.filter_cons, Option.isNone_iff_eq_none, ha]
    · rw [if_neg hab]
      simp [List.filter_cons, ih]

theorem sortThreads_filter_undated (l : List UserThread) :
    (sortThreads l).filter (fun t => t.root_created_at.isNone)
      = l.filter (fun t => t.root_created_at.isNone) := by
  unfold sortThreads
  induction l with
  | nil => rfl
  | cons a t ih =>
    rw [List.insertionSort]
    by_cases ha : a.root_created_at = Option.none
    · rw [filter_orderedInsert_undated a ha _, ih]
      simp [List.filter_cons, ha]
    · rw [filter_orderedInsert_dated a ha _, ih]
      simp [List.filter_cons, Option.isNone_iff_eq_none, ha]

/-- C9: in the sorted thread list every dated thread precedes every
undated one, dated threads are in descending (most-recent-first)
`root_created_at` order, undated threads keep their pre-sort relative
order, and the sort is a permutation of its input. -/
theorem sortThreads_ordering (l : List UserThread) :
    ((sortThreads l).Pairwise (fun a b =>
      b.root_created_at.isSome → a.root_created_at.isSome)) ∧
    ((sortThreads l).Pairwise (fun a b => ∀ sa sb, a.root_created_at = some sa →
      b.root_created_at = some sb → sb ≤ sa)) ∧
    ((sortThreads l).filter (fun t => t.root_created_at.isNone)
      = l.filter (fun t => t.root_created_at.isNone)) ∧
    List.Perm (sortThreads l) l := by
  have hsorted : (sortThreads l).Pairwise threadGe :=
    List.sorted_insertionSort threadGe l
  refine ⟨?_, ?_, sortThreads_filter_undated l, List.perm_insertionSort threadGe l⟩
  · refine hsorted.imp ?_
    intro a b hab hb
    rcases (threadGe_iff a b).1 hab with ⟨hb1, _⟩ | ⟨hba, _⟩
    · have hb2 : (threadSortKey b).1 = true := hb
      rw [hb2] at hb1
      cases hb1
    · show (threadSortKey a).1 = true
      rw [← hba]
      exact hb
  · refine hsorted.imp ?_
    intro a b hab sa sb hsa hsb
    rcases (threadGe_iff a b).1 hab with ⟨hb1, _⟩ | ⟨_, hle⟩
    · rw [show (threadSortKey b).1 = true from by simp [threadSortKey, hsb]] at hb1
      cases hb1
    · have hka : (threadSortKey a).2 = sa := by simp [threadSortKey, hsa]
      have hkb : (threadSortKey b).2 = sb := by simp [threadSortKey, hsb]
      rw [hka, hkb] at hle
      exact hle

/-- Concrete store for the C8 witness: id `"t"` with username `"alice"`. -/
def fuseStoreEx : List (String × TweetRec) :=
  [("t", ⟨"", .finite 0, "alice", Option.none, "", 0, ""⟩)]

/-- Concrete tree `tweets` container for the C8 witness: the embedded
record for `"t"` carries the different username `"bob"`. -/
def fuseTweetsEx : List (PyValue × PyValue) :=
  [(.str "t", .dict [(.str "username", .str "bob")])]

/-- The fused entry for the C8 witness: the flat-store `"alice"` wins. -/
def fuseEntryEx : TweetEntry :=
  ⟨"t", "alice", Option.none, "", 0, "", .finite 0, false, false⟩

/-- Witness for C8 at a store/tree pair with conflicting usernames. -/
theorem fuseEntry_precedence_witness :
    (∀ r, storeGet fuseStoreEx "t" = some r → r.username ≠ "" →
      fuseEntryEx.username = r.username) ∧
    (∀ r, storeGet fuseStoreEx "t" = some r → r.username = "" →
      fuseEntryEx.username = to_string (dictGetStr (treeInfoOf fuseTweetsEx "t") "username")) ∧
    (storeGet fuseStoreEx "t" = Option.none →
      fuseEntryEx.username = to_string (dictGetStr (treeInfoOf fuseTweetsEx "t") "username")) ∧
    (∀ r, storeGet fuseStoreEx "t" = some r → r.full_text ≠ "" →
      fuseEntryEx.full_text = r.full_text) ∧
    (∀ r, storeGet fuseStoreEx "t" = some r → r.full_text = "" →
      fuseEntryEx.full_text = to_string (dictGetStr (treeInfoOf fuseTweetsEx "t") "full_text")) ∧
    (storeGet fuseStoreEx "t" = Option.none →
      fuseEntryEx.full_text = to_string (dictGetStr (treeInfoOf fuseTweetsEx "t") "full_text")) ∧
    (∀ r, storeGet fuseStoreEx "t" = some r → r.cluster ≠ "" →
      fuseEntryEx.cluster_id = r.cluster) ∧
    (∀ r, storeGet fuseStoreEx "t" = some r → r.cluster = "" →
      fuseEntryEx.cluster_id = to_string (dictGetStr (treeInfoOf fuseTweetsEx "t") "cluster")) ∧
    (storeGet fuseStoreEx "t" = Option.none →
      fuseEntryEx.cluster_id = to_string (dictGetStr (treeInfoOf fuseTweetsEx "t") "cluster")) ∧
    (∀ r, storeGet fuseStoreEx "t" = some r →
      fuseEntryEx.created_at = orElseStr r.created_at
        (normalize_created_at (dictGetStr (treeInfoOf fuseTweetsEx "t") "created_at"))) ∧
    (storeGet fuseStoreEx "t" = Option.none →
      fuseEntryEx.created_at
        = normalize_created_at (dictGetStr (treeInfoOf fuseTweetsEx "t") "created_at")) ∧
    (∀ r, storeGet fuseStoreEx "t" = some r →
      fuseEntryEx.favorite_count = r.favorite_count) ∧
    (storeGet fuseStoreEx "t" = Option.none →
      to_int (dictGetStr (treeInfoOf fuseTweetsEx "t") "favorite_count")
        = .ok fuseEntryEx.favorite_count) ∧
    (∀ r, storeGet fuseStoreEx "t" = some r →
      fuseEntryEx.cluster_prob = r.cluster_prob) ∧
    (storeGet fuseStoreEx "t" = Option.none →
      to_float (dictGetStr (treeInfoOf fuseTweetsEx "t") "cluster_prob")
        = .ok fuseEntryEx.cluster_prob) ∧
    (to_string PyValue.none = "" ∧ to_int PyValue.none = .ok 0 ∧
      to_float PyValue.none = .ok (.finite 0)) :=
  fuseEntry_precedence fuseStoreEx fuseTweetsEx "t" fuseEntryEx (by decide)
